import Mathlib

/-
Verification of the singleflight call-sharing package.

The Go source (singleflight.go) is shallowly embedded as a small-step
operational semantics.  A `Caller` holds a mutex-guarded map from keys to
in-flight `call` records; a record carries a weighted semaphore used as a
one-shot gate (the leader pre-acquires the full writer weight, followers
acquire one reader unit each with their own context).  Each atomic region
of the Go code (a mutex-protected section, a semaphore operation together
with the adjacent record access of the same statement) becomes one
constructor of the `Step` relation; runs are interleavings of such steps
by any number of caller threads plus environment steps that cancel a
caller's context.  Machine integers are modelled as `Nat` (the weights
involved, 1 and 2^30, are far below any overflow boundary of Go's int64
semaphore weights, so no modular reduction arises).
-/

namespace Singleflight

/-- readerWeight mirrors the Go constant `readerWeight = 1 << (30*iota)` at
iota = 0, i.e. the weight a follower acquires on the gate. -/
def readerWeight : Nat := 1 <<< (30 * 0)

/-- writerWeight mirrors the Go constant `writerWeight = 1 << (30*iota)` at
iota = 1, i.e. the full capacity the leader pre-acquires. -/
def writerWeight : Nat := 1 <<< (30 * 1)

/-- Weighted models `semaphore.Weighted` from golang.org/x/sync/semaphore:
`size` is the capacity passed to `NewWeighted`, `cur` the weight currently
held by acquirers.  Both are `int64` in Go, embedded as `Int`. -/
structure Weighted where
  size : Int
  cur : Int
deriving DecidableEq

/-- newWeighted models `semaphore.NewWeighted(n)`: capacity `n`, nothing
held yet. -/
def newWeighted (n : Nat) : Weighted := ⟨(n : Int), 0⟩

/-- tryAcquire models the success condition of `Weighted.Acquire`: the
acquisition of weight `n` succeeds exactly when `n` more fits under the
capacity, and then records the extra held weight.  `none` means the caller
would block (or fail with its context's error). -/
def tryAcquire (s : Weighted) (n : Nat) : Option Weighted :=
  if s.cur + (n : Int) ≤ s.size then some ⟨s.size, s.cur + (n : Int)⟩ else none

/-- Weighted.release models `Weighted.Release(n)`: the held weight shrinks
by `n`. -/
def Weighted.release (s : Weighted) (n : Nat) : Weighted := ⟨s.size, s.cur - (n : Int)⟩

/-- Ctx models the part of a `context.Context` this package observes:
`canceledWith` is `none` while the context is live and `some e` once the
context is done with `ctx.Err() = e` (canceled or deadline exceeded);
`sfKey` is the value stored under the package's private `contextKeyType`
key (`none` when no such value was attached). -/
structure Ctx (K E : Type) where
  canceledWith : Option E
  sfKey : Option K
deriving DecidableEq

/-- withValue models `context.WithValue(ctx, contextKeyType[K]{}, key)` as
performed on line 66 of singleflight.go. -/
def withValue {K E : Type} (ctx : Ctx K E) (key : K) : Ctx K E :=
  { ctx with sfKey := some key }

/-- background models `context.Background()`: never done, carrying no key. -/
def background (K E : Type) : Ctx K E := ⟨none, none⟩

/-- KeyFromContext models `Caller.KeyFromContext` (singleflight.go lines
81-83): `ctx.Value(contextKeyType[K]{}).(K)`.  The lookup yields the
context's stored key if any; the type assertion on a `nil` result panics,
which the embedding renders as `none` (no value is ever returned in that
case). -/
def KeyFromContext {K E : Type} (ctx : Ctx K E) : Option K := ctx.sfKey

/-- call models the record type `call[V]` of singleflight.go (lines 24-28):
the gate semaphore and the result slot.  Go zero-initializes `val` and
`err`; `default` stands for the zero value of `V` and `none` for a nil
error.  `written` is a ghost flag recording whether line 66 has stored the
leader's result yet (it changes no computed value). -/
structure call (V E : Type) where
  sem : Weighted
  val : V
  err : Option E
  written : Bool
deriving DecidableEq

/-- FnOutcome is the behaviour of one invocation of the work function
`fn`: it either returns a value and an error (possibly nil), or panics. -/
inductive FnOutcome (V E : Type) where
  | ok (val : V) (err : Option E)
  | panics
deriving DecidableEq

/-- Phase is the program counter of one caller thread inside `Call`:
not yet entered; blocked on the follower's `sem.Acquire` (line 42) for
record `r`; executing `fn` as the leader of record `r` with the derived
context `fnCtx` (line 66); about to run the leader's final locked section
(lines 69-73) after the result was stored; returned from `Call` with the
given results; or unwinding a panic raised by `fn`. -/
inductive Phase (K V E : Type) where
  | ready
  | followerWait (r : Nat)
  | leaderRun (r : Nat) (fnCtx : Ctx K E)
  | leaderFinish (r : Nat)
  | returned (val : V) (err : Option E)
  | panicked (r : Nat)
deriving DecidableEq

/-- Thread is one caller of `Call`: its key and context arguments, its work
function (described by the outcome it would produce on a given context),
and its current phase. -/
structure Thread (K V E : Type) where
  key : K
  ctx : Ctx K E
  fn : Ctx K E → FnOutcome V E
  phase : Phase K V E

/-- SysState is the shared state of one `Caller[K, V]` plus all caller
threads.  `recs` is the heap of `call` records ever allocated (records
stay reachable through follower pointers after being deleted from the
map, so the heap never frees them); `nextRec` the next fresh record id;
`calls` the registry map (`none` for absent keys, covering both a nil and
an empty Go map); `threads` the callers by thread id. -/
structure SysState (K V E : Type) where
  recs : Nat → Option (call V E)
  nextRec : Nat
  calls : K → Option Nat
  threads : Nat → Option (Thread K V E)

/-- setThread replaces thread `i`. -/
def setThread {K V E : Type} (s : SysState K V E) (i : Nat) (t : Thread K V E) :
    SysState K V E :=
  { s with threads := fun j => if j = i then some t else s.threads j }

/-- setRec replaces record `r`. -/
def setRec {K V E : Type} (s : SysState K V E) (r : Nat) (c : call V E) :
    SysState K V E :=
  { s with recs := fun q => if q = r then some c else s.recs q }

/-- setPhase moves a thread to a new phase, leaving its arguments alone. -/
def setPhase {K V E : Type} (t : Thread K V E) (p : Phase K V E) : Thread K V E :=
  { t with phase := p }

/-- cancelCtx marks a thread's context as done with error `e`. -/
def cancelCtx {K V E : Type} (t : Thread K V E) (e : E) : Thread K V E :=
  { t with ctx := { t.ctx with canceledWith := some e } }

/-- storeResult models line 66's `v.val, v.err = fn(...)` store into the
record (the ghost `written` flag is raised). -/
def storeResult {V E : Type} (c : call V E) (v : V) (e : Option E) : call V E :=
  { c with val := v, err := e, written := true }

/-- setSem replaces a record's semaphore. -/
def setSem {V E : Type} (c : call V E) (w : Weighted) : call V E :=
  { c with sem := w }

/-- Ev labels the observable actions of a step: `invoke i k r fc` = thread
`i` starts running `fn` for key `k` as leader of record `r`, passing
context `fc`; `write r v e` = the leader stores `(v, e)` into record `r`'s
result slot (line 66); `openGate r` = the leader releases the full writer
weight (line 71); `del k r` = the leader deletes key `k`, mapped to record
`r`, from the registry (line 72); `retShared i r v e` = thread `i` returns
`(v, e)` read from record `r`'s slot (line 48 or 75); `retCanceled i v e` =
thread `i` returns `(v, e)` on the follower's cancellation path (line 44);
`cancel i` = the environment ends thread `i`'s context. -/
inductive Ev (K V E : Type) where
  | invoke (tid : Nat) (key : K) (r : Nat) (fnCtx : Ctx K E)
  | write (r : Nat) (val : V) (err : Option E)
  | openGate (r : Nat)
  | del (key : K) (r : Nat)
  | retShared (tid : Nat) (r : Nat) (val : V) (err : Option E)
  | retCanceled (tid : Nat) (val : V) (err : Option E)
  | cancel (tid : Nat)
deriving DecidableEq

variable {K V E : Type}

/-- leaderEnterState is the state after the leader's entry section of
`Call` (lines 35-66 up to invoking `fn`): a fresh record whose semaphore
`sem` already holds the writer weight is allocated and mapped under the
caller's key, and the caller proceeds to run `fn` with the key-carrying
context. -/
def leaderEnterState [DecidableEq K] [Inhabited V] (s : SysState K V E) (i : Nat)
    (t : Thread K V E) (sem : Weighted) : SysState K V E :=
  { recs := fun q =>
      if q = s.nextRec then some ⟨sem, default, none, false⟩ else s.recs q,
    nextRec := s.nextRec + 1,
    calls := fun k => if k = t.key then some s.nextRec else s.calls k,
    threads := fun j =>
      if j = i then
        some (setPhase t (.leaderRun s.nextRec (withValue t.ctx t.key)))
      else s.threads j }

/-- leaderExitState is the state after the leader's final locked section
(lines 69-75): the full writer weight is released and the key is deleted
from the map, and the leader returns the stored result. -/
def leaderExitState [DecidableEq K] (s : SysState K V E) (i : Nat)
    (t : Thread K V E) (r : Nat) (c : call V E) : SysState K V E :=
  { recs := fun q =>
      if q = r then some (setSem c (c.sem.release writerWeight)) else s.recs q,
    nextRec := s.nextRec,
    calls := fun k => if k = t.key then none else s.calls k,
    threads := fun j =>
      if j = i then some (setPhase t (.returned c.val c.err)) else s.threads j }

@[simp] theorem leaderEnterState_recs [DecidableEq K] [Inhabited V]
    {s : SysState K V E} {i : Nat} {t : Thread K V E} {sem : Weighted} {q : Nat} :
    (leaderEnterState s i t sem).recs q =
      if q = s.nextRec then some ⟨sem, default, none, false⟩ else s.recs q := rfl

@[simp] theorem leaderEnterState_nextRec [DecidableEq K] [Inhabited V]
    {s : SysState K V E} {i : Nat} {t : Thread K V E} {sem : Weighted} :
    (leaderEnterState s i t sem).nextRec = s.nextRec + 1 := rfl

@[simp] theorem leaderEnterState_calls [DecidableEq K] [Inhabited V]
    {s : SysState K V E} {i : Nat} {t : Thread K V E} {sem : Weighted} {k : K} :
    (leaderEnterState s i t sem).calls k =
      if k = t.key then some s.nextRec else s.calls k := rfl

@[simp] theorem leaderEnterState_threads [DecidableEq K] [Inhabited V]
    {s : SysState K V E} {i : Nat} {t : Thread K V E} {sem : Weighted} {j : Nat} :
    (leaderEnterState s i t sem).threads j =
      if j = i then
        some (setPhase t (.leaderRun s.nextRec (withValue t.ctx t.key)))
      else s.threads j := rfl

@[simp] theorem leaderExitState_recs [DecidableEq K]
    {s : SysState K V E} {i : Nat} {t : Thread K V E} {r : Nat} {c : call V E} {q : Nat} :
    (leaderExitState s i t r c).recs q =
      if q = r then some (setSem c (c.sem.release writerWeight)) else s.recs q := rfl

@[simp] theorem leaderExitState_nextRec [DecidableEq K]
    {s : SysState K V E} {i : Nat} {t : Thread K V E} {r : Nat} {c : call V E} :
    (leaderExitState s i t r c).nextRec = s.nextRec := rfl

@[simp] theorem leaderExitState_calls [DecidableEq K]
    {s : SysState K V E} {i : Nat} {t : Thread K V E} {r : Nat} {c : call V E} {k : K} :
    (leaderExitState s i t r c).calls k =
      if k = t.key then none else s.calls k := rfl

@[simp] theorem leaderExitState_threads [DecidableEq K]
    {s : SysState K V E} {i : Nat} {t : Thread K V E} {r : Nat} {c : call V E} {j : Nat} :
    (leaderExitState s i t r c).threads j =
      if j = i then some (setPhase t (.returned c.val c.err)) else s.threads j := rfl

@[simp] theorem setPhase_key {t : Thread K V E} {p : Phase K V E} :
    (setPhase t p).key = t.key := rfl

@[simp] theorem setPhase_ctx {t : Thread K V E} {p : Phase K V E} :
    (setPhase t p).ctx = t.ctx := rfl

@[simp] theorem setPhase_fn {t : Thread K V E} {p : Phase K V E} :
    (setPhase t p).fn = t.fn := rfl

@[simp] theorem setPhase_phase {t : Thread K V E} {p : Phase K V E} :
    (setPhase t p).phase = p := rfl

@[simp] theorem cancelCtx_key {t : Thread K V E} {e : E} :
    (cancelCtx t e).key = t.key := rfl

@[simp] theorem cancelCtx_fn {t : Thread K V E} {e : E} :
    (cancelCtx t e).fn = t.fn := rfl

@[simp] theorem cancelCtx_phase {t : Thread K V E} {e : E} :
    (cancelCtx t e).phase = t.phase := rfl

@[simp] theorem cancelCtx_ctx {t : Thread K V E} {e : E} :
    (cancelCtx t e).ctx = ⟨some e, t.ctx.sfKey⟩ := rfl

@[simp] theorem storeResult_sem {c : call V E} {v : V} {e : Option E} :
    (storeResult c v e).sem = c.sem := rfl

@[simp] theorem storeResult_val {c : call V E} {v : V} {e : Option E} :
    (storeResult c v e).val = v := rfl

@[simp] theorem storeResult_err {c : call V E} {v : V} {e : Option E} :
    (storeResult c v e).err = e := rfl

@[simp] theorem storeResult_written {c : call V E} {v : V} {e : Option E} :
    (storeResult c v e).written = true := rfl

@[simp] theorem setSem_sem {c : call V E} {w : Weighted} : (setSem c w).sem = w := rfl

@[simp] theorem setSem_val {c : call V E} {w : Weighted} : (setSem c w).val = c.val := rfl

@[simp] theorem setSem_err {c : call V E} {w : Weighted} : (setSem c w).err = c.err := rfl

@[simp] theorem setSem_written {c : call V E} {w : Weighted} :
    (setSem c w).written = c.written := rfl

@[simp] theorem release_size {w : Weighted} {n : Nat} :
    (Weighted.release w n).size = w.size := rfl

@[simp] theorem release_cur {w : Weighted} {n : Nat} :
    (Weighted.release w n).cur = w.cur - n := rfl

/-- Step is the small-step transition relation of the system; each
constructor is one atomic region of `Caller.Call` (singleflight.go), or an
environment action.

* `leaderEnter`: lines 35-66 up to the call of `fn` — under the mutex, the
  key is absent, so a record is allocated with a fresh semaphore of
  capacity `writerWeight`, from which the whole writer weight is acquired
  (guaranteed to succeed on a fresh semaphore), the record is inserted
  into the map, and `fn` is invoked with `ctx` extended by the key.
* `followerEnter`: lines 35-40 — under the mutex, the key maps to an
  in-flight record; the caller attaches to it.
* `followerAcquire`: lines 42-48, success path — `sem.Acquire(ctx, 1)`
  succeeds, the record's `val`/`err` are read, the deferred
  `sem.Release(1)` runs, and `Call` returns them.
* `followerCanceled`: lines 42-45, error path — the follower's own context
  is done, `Acquire` returns its error, and `Call` returns the zero value
  of `V` with that error, touching nothing shared.
* `fnReturns`: line 66 — `fn` returns `(v, e)`, which is stored into the
  record's result slot.
* `fnPanics`: line 66 when `fn` panics — the panic propagates out of
  `Call` (there is no recover and no deferred cleanup on the leader path).
* `leaderExit`: lines 69-75 — under the mutex, the leader releases the
  full writer weight and deletes the key from the map, then returns the
  stored result.
* `ctxCancel`: environment — a live context becomes done with error `e`. -/
inductive Step [DecidableEq K] [Inhabited V] :
    SysState K V E → List (Ev K V E) → SysState K V E → Prop where
  | leaderEnter (s : SysState K V E) (i : Nat) (t : Thread K V E) (sem : Weighted)
      (ht : s.threads i = some t)
      (hp : t.phase = .ready)
      (hk : s.calls t.key = none)
      (ha : tryAcquire (newWeighted writerWeight) writerWeight = some sem) :
      Step s [.invoke i t.key s.nextRec (withValue t.ctx t.key)]
        (leaderEnterState s i t sem)
  | followerEnter (s : SysState K V E) (i : Nat) (t : Thread K V E) (r : Nat)
      (ht : s.threads i = some t)
      (hp : t.phase = .ready)
      (hk : s.calls t.key = some r) :
      Step s [] (setThread s i (setPhase t (.followerWait r)))
  | followerAcquire (s : SysState K V E) (i : Nat) (t : Thread K V E) (r : Nat)
      (c : call V E) (sem : Weighted)
      (ht : s.threads i = some t)
      (hp : t.phase = .followerWait r)
      (hc : s.recs r = some c)
      (ha : tryAcquire c.sem readerWeight = some sem) :
      Step s [.retShared i r c.val c.err]
        (setRec (setThread s i (setPhase t (.returned c.val c.err))) r
          (setSem c (sem.release readerWeight)))
  | followerCanceled (s : SysState K V E) (i : Nat) (t : Thread K V E) (r : Nat) (e : E)
      (ht : s.threads i = some t)
      (hp : t.phase = .followerWait r)
      (hd : t.ctx.canceledWith = some e) :
      Step s [.retCanceled i default (some e)]
        (setThread s i (setPhase t (.returned default (some e))))
  | fnReturns (s : SysState K V E) (i : Nat) (t : Thread K V E) (r : Nat)
      (fc : Ctx K E) (c : call V E) (v : V) (e : Option E)
      (ht : s.threads i = some t)
      (hp : t.phase = .leaderRun r fc)
      (hc : s.recs r = some c)
      (hf : t.fn fc = .ok v e) :
      Step s [.write r v e]
        (setRec (setThread s i (setPhase t (.leaderFinish r))) r (storeResult c v e))
  | fnPanics (s : SysState K V E) (i : Nat) (t : Thread K V E) (r : Nat) (fc : Ctx K E)
      (ht : s.threads i = some t)
      (hp : t.phase = .leaderRun r fc)
      (hf : t.fn fc = .panics) :
      Step s [] (setThread s i (setPhase t (.panicked r)))
  | leaderExit (s : SysState K V E) (i : Nat) (t : Thread K V E) (r : Nat) (c : call V E)
      (ht : s.threads i = some t)
      (hp : t.phase = .leaderFinish r)
      (hc : s.recs r = some c) :
      Step s [.openGate r, .del t.key r, .retShared i r c.val c.err]
        (leaderExitState s i t r c)
  | ctxCancel (s : SysState K V E) (i : Nat) (t : Thread K V E) (e : E)
      (ht : s.threads i = some t)
      (hd : t.ctx.canceledWith = none) :
      Step s [.cancel i] (setThread s i (cancelCtx t e))

/-- Steps is the reflexive-transitive closure of `Step`, concatenating the
event traces. -/
inductive Steps [DecidableEq K] [Inhabited V] :
    SysState K V E → List (Ev K V E) → SysState K V E → Prop where
  | refl (s : SysState K V E) : Steps s [] s
  | tail {s s₂ s₃ : SysState K V E} {tr evs : List (Ev K V E)}
      (h1 : Steps s tr s₂) (h2 : Step s₂ evs s₃) : Steps s (tr ++ evs) s₃

/-- mkInit is the initial system state: no records allocated, the Go map
still nil (every key absent), and the given caller threads. -/
def mkInit (ts : Nat → Option (Thread K V E)) : SysState K V E :=
  { recs := fun _ => none, nextRec := 0, calls := fun _ => none, threads := ts }

/-- isWriteOf recognizes the result-slot write event of record `r`. -/
def isWriteOf (r : Nat) : Ev K V E → Bool
  | .write q _ _ => q = r
  | _ => false

/-- isOpenGateOf recognizes the gate-opening release event of record `r`. -/
def isOpenGateOf (r : Nat) : Ev K V E → Bool
  | .openGate q => q = r
  | _ => false

/-- isDelOf recognizes the registry deletion event of record `r`. -/
def isDelOf (r : Nat) : Ev K V E → Bool
  | .del _ q => q = r
  | _ => false

/-- IsAt says position `n` of trace `tr` holds an event satisfying `p`. -/
def IsAt (tr : List (Ev K V E)) (n : Nat) (p : Ev K V E → Bool) : Prop :=
  ∃ a, tr[n]? = some a ∧ p a = true

/-- Precedes says every `q`-event in the trace has a `p`-event strictly
earlier in the trace. -/
def Precedes (p q : Ev K V E → Bool) (tr : List (Ev K V E)) : Prop :=
  ∀ j, IsAt tr j q → ∃ i, i < j ∧ IsAt tr i p

theorem readerWeight_eq : readerWeight = 1 := rfl

theorem writerWeight_eq : writerWeight = 2 ^ 30 := by
  unfold writerWeight
  simp [Nat.shiftLeft_eq]

theorem writerWeight_pos : 0 < writerWeight := by
  rw [writerWeight_eq]; positivity

theorem readerWeight_lt_writerWeight : readerWeight < writerWeight := by
  rw [readerWeight_eq, writerWeight_eq]; norm_num

theorem tryAcquire_some {w : Weighted} {n : Nat} {w' : Weighted}
    (h : tryAcquire w n = some w') :
    w.cur + (n : Int) ≤ w.size ∧ w' = ⟨w.size, w.cur + (n : Int)⟩ := by
  unfold tryAcquire at h
  split at h <;> simp_all

@[simp] theorem setThread_threads {s : SysState K V E} {i : Nat} {t : Thread K V E}
    {j : Nat} : (setThread s i t).threads j = if j = i then some t else s.threads j := rfl

@[simp] theorem setThread_recs {s : SysState K V E} {i : Nat} {t : Thread K V E} :
    (setThread s i t).recs = s.recs := rfl

@[simp] theorem setThread_calls {s : SysState K V E} {i : Nat} {t : Thread K V E} :
    (setThread s i t).calls = s.calls := rfl

@[simp] theorem setThread_nextRec {s : SysState K V E} {i : Nat} {t : Thread K V E} :
    (setThread s i t).nextRec = s.nextRec := rfl

@[simp] theorem setRec_recs {s : SysState K V E} {r : Nat} {c : call V E} {q : Nat} :
    (setRec s r c).recs q = if q = r then some c else s.recs q := rfl

@[simp] theorem setRec_threads {s : SysState K V E} {r : Nat} {c : call V E} :
    (setRec s r c).threads = s.threads := rfl

@[simp] theorem setRec_calls {s : SysState K V E} {r : Nat} {c : call V E} :
    (setRec s r c).calls = s.calls := rfl

@[simp] theorem setRec_nextRec {s : SysState K V E} {r : Nat} {c : call V E} :
    (setRec s r c).nextRec = s.nextRec := rfl

/-- OwnsRec says the phase belongs to the (unique) thread currently
responsible for record `r`: its leader while `fn` runs, its leader after
storing the result, or the thread whose `fn` panicked under it. -/
def OwnsRec (p : Phase K V E) (r : Nat) : Prop :=
  (∃ fc, p = .leaderRun r fc) ∨ p = .leaderFinish r ∨ p = .panicked r

@[simp] theorem ownsRec_ready {r : Nat} :
    OwnsRec (Phase.ready : Phase K V E) r ↔ False := by
  simp [OwnsRec]

@[simp] theorem ownsRec_followerWait {q r : Nat} :
    OwnsRec (Phase.followerWait q : Phase K V E) r ↔ False := by
  simp [OwnsRec]

@[simp] theorem ownsRec_leaderRun {q r : Nat} {fc : Ctx K E} :
    OwnsRec (Phase.leaderRun q fc : Phase K V E) r ↔ q = r := by
  simp [OwnsRec]

@[simp] theorem ownsRec_leaderFinish {q r : Nat} :
    OwnsRec (Phase.leaderFinish q : Phase K V E) r ↔ q = r := by
  simp [OwnsRec]

@[simp] theorem ownsRec_panicked {q r : Nat} :
    OwnsRec (Phase.panicked q : Phase K V E) r ↔ q = r := by
  simp [OwnsRec]

@[simp] theorem ownsRec_returned {r : Nat} {v : V} {e : Option E} :
    OwnsRec (Phase.returned v e : Phase K V E) r ↔ False := by
  simp [OwnsRec]

/-- Inv is the state invariant of the system, preserved by every step from
the initial state: record ids below `nextRec` are exactly the allocated
ones; every waiting follower and every owner points at an allocated
record; an owner's key is still mapped to its record; a running leader's
record is closed and unwritten and its derived context carries its key; a
finished leader's record is closed and written; a panicked owner's record
is closed and unwritten; each record has at most one owner; every mapped
key is owned by a thread carrying that key; every record has capacity
`writerWeight` and is either fully held (closed) or fully released
(open), is zero-valued while unwritten, and is written once open; and no
open record is still mapped. -/
structure Inv [Inhabited V] (s : SysState K V E) : Prop where
  fresh : ∀ r, s.nextRec ≤ r → s.recs r = none
  followerRec : ∀ i t r, s.threads i = some t → t.phase = .followerWait r →
    r < s.nextRec
  ownerCalls : ∀ i t r, s.threads i = some t → OwnsRec t.phase r →
    r < s.nextRec ∧ s.calls t.key = some r
  runSt : ∀ i t r fc, s.threads i = some t → t.phase = .leaderRun r fc →
    fc.sfKey = some t.key ∧
      ∃ c, s.recs r = some c ∧ c.sem.cur = (writerWeight : Int) ∧ c.written = false
  finSt : ∀ i t r, s.threads i = some t → t.phase = .leaderFinish r →
    ∃ c, s.recs r = some c ∧ c.sem.cur = (writerWeight : Int) ∧ c.written = true
  panSt : ∀ i t r, s.threads i = some t → t.phase = .panicked r →
    ∃ c, s.recs r = some c ∧ c.sem.cur = (writerWeight : Int) ∧ c.written = false
  ownerUniq : ∀ i j ti tj r, s.threads i = some ti → s.threads j = some tj →
    OwnsRec ti.phase r → OwnsRec tj.phase r → i = j
  callsOwner : ∀ k r, s.calls k = some r →
    ∃ i t, s.threads i = some t ∧ t.key = k ∧ OwnsRec t.phase r
  recSt : ∀ r c, s.recs r = some c → c.sem.size = (writerWeight : Int) ∧
    (c.sem.cur = (writerWeight : Int) ∨ c.sem.cur = 0) ∧
    (c.written = false →
      c.sem.cur = (writerWeight : Int) ∧ c.val = default ∧ c.err = none) ∧
    (c.sem.cur = 0 → c.written = true)
  openUnmapped : ∀ r c, s.recs r = some c → c.sem.cur = 0 →
    ∀ k, s.calls k ≠ some r

theorem inv_leaderEnter [DecidableEq K] [Inhabited V] {s : SysState K V E}
    {i : Nat} {t : Thread K V E} {sem : Weighted}
    (hI : Inv s) (ht : s.threads i = some t) (hp : t.phase = .ready)
    (hk : s.calls t.key = none)
    (ha : tryAcquire (newWeighted writerWeight) writerWeight = some sem) :
    Inv (leaderEnterState s i t sem) := by
  obtain ⟨hle, hsem⟩ := tryAcquire_some ha
  have hsem2 : sem = ⟨(writerWeight : Int), (writerWeight : Int)⟩ := by
    rw [hsem]; simp [newWeighted]
  subst hsem2
  refine ⟨?_, ?_, ?_, ?_, ?_, ?_, ?_, ?_, ?_, ?_⟩
  · intro r hr
    simp only [leaderEnterState_nextRec] at hr
    simp only [leaderEnterState_recs]
    rw [if_neg (by omega)]
    exact hI.fresh r (by omega)
  · intro j tj r hj hph
    simp only [leaderEnterState_threads] at hj
    simp only [leaderEnterState_nextRec]
    by_cases hji : j = i
    · rw [if_pos hji] at hj
      simp only [Option.some.injEq] at hj
      subst hj
      simp at hph
    · rw [if_neg hji] at hj
      exact Nat.lt_succ_of_lt (hI.followerRec j tj r hj hph)
  · intro j tj r hj hph
    simp only [leaderEnterState_threads] at hj
    simp only [leaderEnterState_nextRec, leaderEnterState_calls]
    by_cases hji : j = i
    · rw [if_pos hji] at hj
      simp only [Option.some.injEq] at hj
      subst hj
      simp only [setPhase_phase, ownsRec_leaderRun] at hph
      subst hph
      refine ⟨by omega, ?_⟩
      simp
    · rw [if_neg hji] at hj
      obtain ⟨h1, h2⟩ := hI.ownerCalls j tj r hj hph
      refine ⟨by omega, ?_⟩
      by_cases hkk : tj.key = t.key
      · rw [hkk] at h2; rw [hk] at h2; exact absurd h2 (by simp)
      · rw [if_neg hkk]; exact h2
  · intro j tj r fc hj hph
    simp only [leaderEnterState_threads] at hj
    by_cases hji : j = i
    · rw [if_pos hji] at hj
      simp only [Option.some.injEq] at hj
      subst hj
      simp only [setPhase_phase] at hph
      obtain ⟨hr, hfc⟩ : s.nextRec = r ∧ withValue t.ctx t.key = fc := by
        simpa using hph
      subst hr; subst hfc
      constructor
      · simp [withValue]
      · refine ⟨⟨⟨(writerWeight : Int), (writerWeight : Int)⟩, default, none, false⟩, ?_, rfl, rfl⟩
        simp
    · rw [if_neg hji] at hj
      obtain ⟨h1, c, hc, hcur, hw⟩ := hI.runSt j tj r fc hj hph
      have hrlt : r < s.nextRec :=
        (hI.ownerCalls j tj r hj (Or.inl ⟨fc, hph⟩)).1
      refine ⟨h1, c, ?_, hcur, hw⟩
      simp only [leaderEnterState_recs]
      rw [if_neg (by omega)]
      exact hc
  · intro j tj r hj hph
    simp only [leaderEnterState_threads] at hj
    by_cases hji : j = i
    · rw [if_pos hji] at hj
      simp only [Option.some.injEq] at hj
      subst hj
      simp at hph
    · rw [if_neg hji] at hj
      obtain ⟨c, hc, hcur, hw⟩ := hI.finSt j tj r hj hph
      have hrlt : r < s.nextRec :=
        (hI.ownerCalls j tj r hj (Or.inr (Or.inl hph))).1
      refine ⟨c, ?_, hcur, hw⟩
      simp only [leaderEnterState_recs]
      rw [if_neg (by omega)]
      exact hc
  · intro j tj r hj hph
    simp only [leaderEnterState_threads] at hj
    by_cases hji : j = i
    · rw [if_pos hji] at hj
      simp only [Option.some.injEq] at hj
      subst hj
      simp at hph
    · rw [if_neg hji] at hj
      obtain ⟨c, hc, hcur, hw⟩ := hI.panSt j tj r hj hph
      have hrlt : r < s.nextRec :=
        (hI.ownerCalls j tj r hj (Or.inr (Or.inr hph))).1
      refine ⟨c, ?_, hcur, hw⟩
      simp only [leaderEnterState_recs]
      rw [if_neg (by omega)]
      exact hc
  · intro j j' tj tj' r hj hj' ho ho'
    simp only [leaderEnterState_threads] at hj hj'
    by_cases hji : j = i <;> by_cases hji' : j' = i
    · rw [hji, hji']
    · rw [if_pos hji] at hj
      rw [if_neg hji'] at hj'
      simp only [Option.some.injEq] at hj
      subst hj
      simp only [setPhase_phase, ownsRec_leaderRun] at ho
      have := (hI.ownerCalls j' tj' r hj' ho').1
      omega
    · rw [if_neg hji] at hj
      rw [if_pos hji'] at hj'
      simp only [Option.some.injEq] at hj'
      subst hj'
      simp only [setPhase_phase, ownsRec_leaderRun] at ho'
      have := (hI.ownerCalls j tj r hj ho).1
      omega
    · rw [if_neg hji] at hj
      rw [if_neg hji'] at hj'
      exact hI.ownerUniq j j' tj tj' r hj hj' ho ho'
  · intro k r hkr
    simp only [leaderEnterState_calls] at hkr
    by_cases hkt : k = t.key
    · rw [if_pos hkt] at hkr
      simp only [Option.some.injEq] at hkr
      subst hkr
      refine ⟨i, setPhase t (.leaderRun s.nextRec (withValue t.ctx t.key)), ?_, ?_, ?_⟩
      · simp
      · simp [hkt]
      · simp
    · rw [if_neg hkt] at hkr
      obtain ⟨j, tj, hj, hkey, ho⟩ := hI.callsOwner k r hkr
      have hji : j ≠ i := by
        intro h; subst h
        rw [ht] at hj
        simp only [Option.some.injEq] at hj
        subst hj
        rw [hp] at ho
        simp at ho
      refine ⟨j, tj, ?_, hkey, ho⟩
      simp only [leaderEnterState_threads]; rw [if_neg hji]; exact hj
  · intro r c hc
    simp only [leaderEnterState_recs] at hc
    by_cases hrn : r = s.nextRec
    · rw [if_pos hrn] at hc
      simp only [Option.some.injEq] at hc
      subst hc
      refine ⟨rfl, Or.inl rfl, fun _ => ⟨rfl, rfl, rfl⟩, ?_⟩
      intro h
      have hW : (writerWeight : Int) = 0 := h
      have := writerWeight_pos
      omega
    · rw [if_neg hrn] at hc
      exact hI.recSt r c hc
  · intro r c hc hcur k
    simp only [leaderEnterState_recs] at hc
    simp only [leaderEnterState_calls]
    by_cases hrn : r = s.nextRec
    · rw [if_pos hrn] at hc
      simp only [Option.some.injEq] at hc
      subst hc
      exfalso
      have hW : (writerWeight : Int) = 0 := hcur
      have := writerWeight_pos
      omega
    · rw [if_neg hrn] at hc
      by_cases hkt : k = t.key
      · rw [if_pos hkt]
        intro hco
        simp only [Option.some.injEq] at hco
        exact hrn hco.symm
      · rw [if_neg hkt]
        exact hI.openUnmapped r c hc hcur k

theorem inv_setThread [DecidableEq K] [Inhabited V] {s : SysState K V E} {i : Nat}
    {t t' : Thread K V E}
    (hI : Inv s) (ht : s.threads i = some t)
    (hkey : t'.key = t.key)
    (howns : ∀ q, OwnsRec t'.phase q → OwnsRec t.phase q)
    (hrev : ∀ q, OwnsRec t.phase q → OwnsRec t'.phase q)
    (hfollow : ∀ q, t'.phase = .followerWait q → q < s.nextRec)
    (hrun : ∀ q fc, t'.phase = .leaderRun q fc →
      fc.sfKey = some t'.key ∧
        ∃ c, s.recs q = some c ∧ c.sem.cur = (writerWeight : Int) ∧ c.written = false)
    (hfin : ∀ q, t'.phase = .leaderFinish q →
      ∃ c, s.recs q = some c ∧ c.sem.cur = (writerWeight : Int) ∧ c.written = true)
    (hpan : ∀ q, t'.phase = .panicked q →
      ∃ c, s.recs q = some c ∧ c.sem.cur = (writerWeight : Int) ∧ c.written = false) :
    Inv (setThread s i t') := by
  refine ⟨?_, ?_, ?_, ?_, ?_, ?_, ?_, ?_, ?_, ?_⟩
  · intro q hq
    simp only [setThread_nextRec] at hq
    simp only [setThread_recs]
    exact hI.fresh q hq
  · intro j tj q hj hph
    simp only [setThread_threads] at hj
    simp only [setThread_nextRec]
    by_cases hji : j = i
    · rw [if_pos hji] at hj
      simp only [Option.some.injEq] at hj
      subst hj
      exact hfollow q hph
    · rw [if_neg hji] at hj
      exact hI.followerRec j tj q hj hph
  · intro j tj q hj hph
    simp only [setThread_threads] at hj
    simp only [setThread_nextRec, setThread_calls]
    by_cases hji : j = i
    · rw [if_pos hji] at hj
      simp only [Option.some.injEq] at hj
      subst hj
      rw [hkey]
      exact hI.ownerCalls i t q ht (howns q hph)
    · rw [if_neg hji] at hj
      exact hI.ownerCalls j tj q hj hph
  · intro j tj q fc hj hph
    simp only [setThread_threads] at hj
    simp only [setThread_recs]
    by_cases hji : j = i
    · rw [if_pos hji] at hj
      simp only [Option.some.injEq] at hj
      subst hj
      exact hrun q fc hph
    · rw [if_neg hji] at hj
      exact hI.runSt j tj q fc hj hph
  · intro j tj q hj hph
    simp only [setThread_threads] at hj
    simp only [setThread_recs]
    by_cases hji : j = i
    · rw [if_pos hji] at hj
      simp only [Option.some.injEq] at hj
      subst hj
      exact hfin q hph
    · rw [if_neg hji] at hj
      exact hI.finSt j tj q hj hph
  · intro j tj q hj hph
    simp only [setThread_threads] at hj
    simp only [setThread_recs]
    by_cases hji : j = i
    · rw [if_pos hji] at hj
      simp only [Option.some.injEq] at hj
      subst hj
      exact hpan q hph
    · rw [if_neg hji] at hj
      exact hI.panSt j tj q hj hph
  · intro j j' tj tj' q hj hj' ho ho'
    simp only [setThread_threads] at hj hj'
    by_cases hji : j = i <;> by_cases hji' : j' = i
    · rw [hji, hji']
    · rw [if_pos hji] at hj
      rw [if_neg hji'] at hj'
      simp only [Option.some.injEq] at hj
      subst hj
      rw [hji]
      exact hI.ownerUniq i j' t tj' q ht hj' (howns q ho) ho'
    · rw [if_neg hji] at hj
      rw [if_pos hji'] at hj'
      simp only [Option.some.injEq] at hj'
      subst hj'
      rw [hji']
      exact hI.ownerUniq j i tj t q hj ht ho (howns q ho')
    · rw [if_neg hji] at hj
      rw [if_neg hji'] at hj'
      exact hI.ownerUniq j j' tj tj' q hj hj' ho ho'
  · intro k q hkq
    simp only [setThread_calls] at hkq
    simp only [setThread_threads]
    obtain ⟨j0, t0, hj0, hk0, ho0⟩ := hI.callsOwner k q hkq
    by_cases hj0i : j0 = i
    · subst hj0i
      rw [ht] at hj0
      simp only [Option.some.injEq] at hj0
      subst hj0
      refine ⟨j0, t', ?_, ?_, hrev q ho0⟩
      · rw [if_pos rfl]
      · rw [hkey, hk0]
    · refine ⟨j0, t0, ?_, hk0, ho0⟩
      rw [if_neg hj0i]
      exact hj0
  · intro q c hcq
    simp only [setThread_recs] at hcq
    exact hI.recSt q c hcq
  · intro q c hcq hcur k
    simp only [setThread_recs] at hcq
    simp only [setThread_calls]
    exact hI.openUnmapped q c hcq hcur k

theorem inv_followerEnter [DecidableEq K] [Inhabited V] {s : SysState K V E}
    {i : Nat} {t : Thread K V E} {r : Nat}
    (hI : Inv s) (ht : s.threads i = some t) (hp : t.phase = .ready)
    (hk : s.calls t.key = some r) :
    Inv (setThread s i (setPhase t (.followerWait r))) := by
  refine inv_setThread hI ht (by simp) ?_ ?_ ?_ ?_ ?_ ?_
  · intro q h; simp at h
  · intro q h; rw [hp] at h; simp at h
  · intro q h
    simp only [setPhase_phase] at h
    obtain rfl : r = q := by simpa using h
    obtain ⟨j0, t0, hj0, hk0, ho0⟩ := hI.callsOwner t.key r hk
    exact (hI.ownerCalls j0 t0 r hj0 ho0).1
  · intro q fc h; simp at h
  · intro q h; simp at h
  · intro q h; simp at h

theorem inv_followerCanceled [DecidableEq K] [Inhabited V] {s : SysState K V E}
    {i : Nat} {t : Thread K V E} {r : Nat} {e : E}
    (hI : Inv s) (ht : s.threads i = some t) (hp : t.phase = .followerWait r) :
    Inv (setThread s i (setPhase t (.returned default (some e)))) := by
  refine inv_setThread hI ht (by simp) ?_ ?_ ?_ ?_ ?_ ?_
  · intro q h; simp at h
  · intro q h; rw [hp] at h; simp at h
  · intro q h; simp at h
  · intro q fc h; simp at h
  · intro q h; simp at h
  · intro q h; simp at h

theorem inv_fnPanics [DecidableEq K] [Inhabited V] {s : SysState K V E}
    {i : Nat} {t : Thread K V E} {r : Nat} {fc : Ctx K E}
    (hI : Inv s) (ht : s.threads i = some t) (hp : t.phase = .leaderRun r fc) :
    Inv (setThread s i (setPhase t (.panicked r))) := by
  refine inv_setThread hI ht (by simp) ?_ ?_ ?_ ?_ ?_ ?_
  · intro q h
    simp only [setPhase_phase, ownsRec_panicked] at h
    subst h
    rw [hp]
    simp
  · intro q h
    rw [hp] at h
    simp only [ownsRec_leaderRun] at h
    subst h
    simp
  · intro q h; simp at h
  · intro q fc' h; simp at h
  · intro q h; simp at h
  · intro q h
    simp only [setPhase_phase] at h
    obtain rfl : r = q := by simpa using h
    exact (hI.runSt i t r fc ht hp).2

theorem inv_ctxCancel [DecidableEq K] [Inhabited V] {s : SysState K V E}
    {i : Nat} {t : Thread K V E} {e : E}
    (hI : Inv s) (ht : s.threads i = some t) :
    Inv (setThread s i (cancelCtx t e)) := by
  refine inv_setThread hI ht (by simp) ?_ ?_ ?_ ?_ ?_ ?_
  · intro q h; simpa using h
  · intro q h; simpa using h
  · intro q h
    simp only [cancelCtx_phase] at h
    exact hI.followerRec i t q ht h
  · intro q fc h
    simp only [cancelCtx_phase] at h
    have := hI.runSt i t q fc ht h
    simpa using this
  · intro q h
    simp only [cancelCtx_phase] at h
    exact hI.finSt i t q ht h
  · intro q h
    simp only [cancelCtx_phase] at h
    exact hI.panSt i t q ht h

theorem setRec_self {s : SysState K V E} {r : Nat} {c : call V E}
    (h : s.recs r = some c) : setRec s r c = s := by
  cases s with
  | mk recs nextRec calls threads =>
    unfold setRec
    have hf : (fun q => if q = r then some c else recs q) = recs := by
      funext q
      by_cases hq : q = r
      · subst hq; rw [if_pos rfl]; exact h.symm
      · rw [if_neg hq]
    simp only [hf]

theorem inv_followerAcquire [DecidableEq K] [Inhabited V] {s : SysState K V E}
    {i : Nat} {t : Thread K V E} {r : Nat} {c : call V E} {sem : Weighted}
    (hI : Inv s) (ht : s.threads i = some t) (hp : t.phase = .followerWait r)
    (hc : s.recs r = some c) (ha : tryAcquire c.sem readerWeight = some sem) :
    Inv (setRec (setThread s i (setPhase t (.returned c.val c.err))) r
      (setSem c (sem.release readerWeight))) := by
  obtain ⟨hle, hsem⟩ := tryAcquire_some ha
  have hrec : setSem c (sem.release readerWeight) = c := by
    subst hsem
    cases c with
    | mk csem cval cerr cw =>
      cases csem with
      | mk sz cu =>
        simp [setSem, Weighted.release]
  rw [hrec, setRec_self (by simp only [setThread_recs]; exact hc)]
  refine inv_setThread hI ht (by simp) ?_ ?_ ?_ ?_ ?_ ?_
  · intro q h; simp at h
  · intro q h; rw [hp] at h; simp at h
  · intro q h; simp at h
  · intro q fc h; simp at h
  · intro q h; simp at h
  · intro q h; simp at h

theorem inv_fnReturns [DecidableEq K] [Inhabited V] {s : SysState K V E}
    {i : Nat} {t : Thread K V E} {r : Nat} {fc : Ctx K E} {c : call V E}
    {v : V} {e : Option E}
    (hI : Inv s) (ht : s.threads i = some t) (hp : t.phase = .leaderRun r fc)
    (hc : s.recs r = some c) :
    Inv (setRec (setThread s i (setPhase t (.leaderFinish r))) r (storeResult c v e)) := by
  have howner : OwnsRec t.phase r := Or.inl ⟨fc, hp⟩
  obtain ⟨hrlt, hcall⟩ := hI.ownerCalls i t r ht howner
  obtain ⟨hsf, c', hc', hcur, hw⟩ := hI.runSt i t r fc ht hp
  have hcc : c = c' := by rw [hc] at hc'; exact (Option.some.injEq _ _).mp hc'
  subst hcc
  obtain ⟨hsize, hcurOr, hunw, hzw⟩ := hI.recSt r c hc
  refine ⟨?_, ?_, ?_, ?_, ?_, ?_, ?_, ?_, ?_, ?_⟩
  · intro q hq
    simp only [setRec_nextRec, setThread_nextRec] at hq
    simp only [setRec_recs, setThread_recs]
    rw [if_neg (by omega)]
    exact hI.fresh q hq
  · intro j tj q hj hph
    simp only [setRec_threads, setThread_threads] at hj
    simp only [setRec_nextRec, setThread_nextRec]
    by_cases hji : j = i
    · rw [if_pos hji] at hj
      simp only [Option.some.injEq] at hj
      subst hj
      simp at hph
    · rw [if_neg hji] at hj
      exact hI.followerRec j tj q hj hph
  · intro j tj q hj hph
    simp only [setRec_threads, setThread_threads] at hj
    simp only [setRec_nextRec, setThread_nextRec, setRec_calls, setThread_calls]
    by_cases hji : j = i
    · rw [if_pos hji] at hj
      simp only [Option.some.injEq] at hj
      subst hj
      simp only [setPhase_phase, ownsRec_leaderFinish] at hph
      subst hph
      simp only [setPhase_key]
      exact ⟨hrlt, hcall⟩
    · rw [if_neg hji] at hj
      exact hI.ownerCalls j tj q hj hph
  · intro j tj q fc' hj hph
    simp only [setRec_threads, setThread_threads] at hj
    simp only [setRec_recs, setThread_recs]
    by_cases hji : j = i
    · rw [if_pos hji] at hj
      simp only [Option.some.injEq] at hj
      subst hj
      simp at hph
    · rw [if_neg hji] at hj
      have hqr : q ≠ r := by
        intro h
        rw [h] at hph
        exact hji (hI.ownerUniq j i tj t r hj ht (Or.inl ⟨fc', hph⟩) howner)
      obtain ⟨h1, c2, hc2, hcur2, hw2⟩ := hI.runSt j tj q fc' hj hph
      refine ⟨h1, c2, ?_, hcur2, hw2⟩
      rw [if_neg hqr]
      exact hc2
  · intro j tj q hj hph
    simp only [setRec_threads, setThread_threads] at hj
    simp only [setRec_recs, setThread_recs]
    by_cases hji : j = i
    · rw [if_pos hji] at hj
      simp only [Option.some.injEq] at hj
      subst hj
      simp only [setPhase_phase] at hph
      obtain rfl : r = q := by simpa using hph
      refine ⟨storeResult c v e, ?_, ?_, rfl⟩
      · rw [if_pos rfl]
      · simpa using hcur
    · rw [if_neg hji] at hj
      have hqr : q ≠ r := by
        intro h
        rw [h] at hph
        exact hji (hI.ownerUniq j i tj t r hj ht (Or.inr (Or.inl hph)) howner)
      obtain ⟨c2, hc2, hcur2, hw2⟩ := hI.finSt j tj q hj hph
      refine ⟨c2, ?_, hcur2, hw2⟩
      rw [if_neg hqr]
      exact hc2
  · intro j tj q hj hph
    simp only [setRec_threads, setThread_threads] at hj
    simp only [setRec_recs, setThread_recs]
    by_cases hji : j = i
    · rw [if_pos hji] at hj
      simp only [Option.some.injEq] at hj
      subst hj
      simp at hph
    · rw [if_neg hji] at hj
      have hqr : q ≠ r := by
        intro h
        rw [h] at hph
        exact hji (hI.ownerUniq j i tj t r hj ht (Or.inr (Or.inr hph)) howner)
      obtain ⟨c2, hc2, hcur2, hw2⟩ := hI.panSt j tj q hj hph
      refine ⟨c2, ?_, hcur2, hw2⟩
      rw [if_neg hqr]
      exact hc2
  · intro j j' tj tj' q hj hj' ho ho'
    simp only [setRec_threads, setThread_threads] at hj hj'
    by_cases hji : j = i <;> by_cases hji' : j' = i
    · rw [hji, hji']
    · rw [if_pos hji] at hj
      rw [if_neg hji'] at hj'
      simp only [Option.some.injEq] at hj
      subst hj
      simp only [setPhase_phase, ownsRec_leaderFinish] at ho
      subst ho
      rw [hji]
      exact hI.ownerUniq i j' t tj' r ht hj' howner ho'
    · rw [if_neg hji] at hj
      rw [if_pos hji'] at hj'
      simp only [Option.some.injEq] at hj'
      subst hj'
      simp only [setPhase_phase, ownsRec_leaderFinish] at ho'
      subst ho'
      rw [hji']
      exact hI.ownerUniq j i tj t r hj ht ho howner
    · rw [if_neg hji] at hj
      rw [if_neg hji'] at hj'
      exact hI.ownerUniq j j' tj tj' q hj hj' ho ho'
  · intro k q hkq
    simp only [setRec_calls, setThread_calls] at hkq
    simp only [setRec_threads, setThread_threads]
    obtain ⟨j0, t0, hj0, hk0, ho0⟩ := hI.callsOwner k q hkq
    by_cases hj0i : j0 = i
    · subst hj0i
      rw [ht] at hj0
      simp only [Option.some.injEq] at hj0
      subst hj0
      have hq : r = q := by
        rw [hp] at ho0
        simpa using ho0
      subst hq
      refine ⟨j0, setPhase t (.leaderFinish r), ?_, ?_, ?_⟩
      · rw [if_pos rfl]
      · simpa using hk0
      · simp
    · refine ⟨j0, t0, ?_, hk0, ho0⟩
      rw [if_neg hj0i]
      exact hj0
  · intro q c2 hc2
    simp only [setRec_recs, setThread_recs] at hc2
    by_cases hqr : q = r
    · rw [if_pos hqr] at hc2
      simp only [Option.some.injEq] at hc2
      subst hc2
      refine ⟨?_, ?_, ?_, ?_⟩
      · simpa using hsize
      · left; simpa using hcur
      · intro h; simp at h
      · intro _; rfl
    · rw [if_neg hqr] at hc2
      exact hI.recSt q c2 hc2
  · intro q c2 hc2 hcur2 k
    simp only [setRec_recs, setThread_recs] at hc2
    simp only [setRec_calls, setThread_calls]
    by_cases hqr : q = r
    · rw [if_pos hqr] at hc2
      simp only [Option.some.injEq] at hc2
      subst hc2
      exfalso
      have h0 : c.sem.cur = 0 := hcur2
      rw [hcur] at h0
      have := writerWeight_pos
      omega
    · rw [if_neg hqr] at hc2
      exact hI.openUnmapped q c2 hc2 hcur2 k

theorem inv_leaderExit [DecidableEq K] [Inhabited V] {s : SysState K V E}
    {i : Nat} {t : Thread K V E} {r : Nat} {c : call V E}
    (hI : Inv s) (ht : s.threads i = some t) (hp : t.phase = .leaderFinish r)
    (hc : s.recs r = some c) :
    Inv (leaderExitState s i t r c) := by
  have howner : OwnsRec t.phase r := Or.inr (Or.inl hp)
  obtain ⟨hrlt, hcall⟩ := hI.ownerCalls i t r ht howner
  obtain ⟨c', hc', hcur, hw⟩ := hI.finSt i t r ht hp
  have hcc : c = c' := by rw [hc] at hc'; exact (Option.some.injEq _ _).mp hc'
  subst hcc
  obtain ⟨hsize, hcurOr, hunw, hzw⟩ := hI.recSt r c hc
  refine ⟨?_, ?_, ?_, ?_, ?_, ?_, ?_, ?_, ?_, ?_⟩
  · intro q hq
    simp only [leaderExitState_nextRec] at hq
    simp only [leaderExitState_recs]
    rw [if_neg (by omega)]
    exact hI.fresh q hq
  · intro j tj q hj hph
    simp only [leaderExitState_threads] at hj
    simp only [leaderExitState_nextRec]
    by_cases hji : j = i
    · rw [if_pos hji] at hj
      simp only [Option.some.injEq] at hj
      subst hj
      simp at hph
    · rw [if_neg hji] at hj
      exact hI.followerRec j tj q hj hph
  · intro j tj q hj hph
    simp only [leaderExitState_threads] at hj
    simp only [leaderExitState_nextRec, leaderExitState_calls]
    by_cases hji : j = i
    · rw [if_pos hji] at hj
      simp only [Option.some.injEq] at hj
      subst hj
      simp at hph
    · rw [if_neg hji] at hj
      obtain ⟨h1, h2⟩ := hI.ownerCalls j tj q hj hph
      have hqr : q ≠ r := by
        intro h
        rw [h] at hph
        exact hji (hI.ownerUniq j i tj t r hj ht hph howner)
      refine ⟨h1, ?_⟩
      have hkk : tj.key ≠ t.key := by
        intro hk2
        rw [hk2, hcall] at h2
        simp only [Option.some.injEq] at h2
        exact hqr h2.symm
      rw [if_neg hkk]
      exact h2
  · intro j tj q fc' hj hph
    simp only [leaderExitState_threads] at hj
    simp only [leaderExitState_recs]
    by_cases hji : j = i
    · rw [if_pos hji] at hj
      simp only [Option.some.injEq] at hj
      subst hj
      simp at hph
    · rw [if_neg hji] at hj
      have hqr : q ≠ r := by
        intro h
        rw [h] at hph
        exact hji (hI.ownerUniq j i tj t r hj ht (Or.inl ⟨fc', hph⟩) howner)
      obtain ⟨h1, c2, hc2, hcur2, hw2⟩ := hI.runSt j tj q fc' hj hph
      refine ⟨h1, c2, ?_, hcur2, hw2⟩
      rw [if_neg hqr]
      exact hc2
  · intro j tj q hj hph
    simp only [leaderExitState_threads] at hj
    simp only [leaderExitState_recs]
    by_cases hji : j = i
    · rw [if_pos hji] at hj
      simp only [Option.some.injEq] at hj
      subst hj
      simp at hph
    · rw [if_neg hji] at hj
      have hqr : q ≠ r := by
        intro h
        rw [h] at hph
        exact hji (hI.ownerUniq j i tj t r hj ht (Or.inr (Or.inl hph)) howner)
      obtain ⟨c2, hc2, hcur2, hw2⟩ := hI.finSt j tj q hj hph
      refine ⟨c2, ?_, hcur2, hw2⟩
      rw [if_neg hqr]
      exact hc2
  · intro j tj q hj hph
    simp only [leaderExitState_threads] at hj
    simp only [leaderExitState_recs]
    by_cases hji : j = i
    · rw [if_pos hji] at hj
      simp only [Option.some.injEq] at hj
      subst hj
      simp at hph
    · rw [if_neg hji] at hj
      have hqr : q ≠ r := by
        intro h
        rw [h] at hph
        exact hji (hI.ownerUniq j i tj t r hj ht (Or.inr (Or.inr hph)) howner)
      obtain ⟨c2, hc2, hcur2, hw2⟩ := hI.panSt j tj q hj hph
      refine ⟨c2, ?_, hcur2, hw2⟩
      rw [if_neg hqr]
      exact hc2
  · intro j j' tj tj' q hj hj' ho ho'
    simp only [leaderExitState_threads] at hj hj'
    by_cases hji : j = i <;> by_cases hji' : j' = i
    · rw [hji, hji']
    · rw [if_pos hji] at hj
      simp only [Option.some.injEq] at hj
      subst hj
      simp at ho
    · rw [if_pos hji'] at hj'
      simp only [Option.some.injEq] at hj'
      subst hj'
      simp at ho'
    · rw [if_neg hji] at hj
      rw [if_neg hji'] at hj'
      exact hI.ownerUniq j j' tj tj' q hj hj' ho ho'
  · intro k q hkq
    simp only [leaderExitState_calls] at hkq
    simp only [leaderExitState_threads]
    by_cases hkt : k = t.key
    · rw [if_pos hkt] at hkq
      simp at hkq
    · rw [if_neg hkt] at hkq
      obtain ⟨j0, t0, hj0, hk0, ho0⟩ := hI.callsOwner k q hkq
      have hj0i : j0 ≠ i := by
        intro h; subst h
        rw [ht] at hj0
        simp only [Option.some.injEq] at hj0
        subst hj0
        exact hkt hk0.symm
      refine ⟨j0, t0, ?_, hk0, ho0⟩
      rw [if_neg hj0i]
      exact hj0
  · intro q c2 hc2
    simp only [leaderExitState_recs] at hc2
    by_cases hqr : q = r
    · rw [if_pos hqr] at hc2
      simp only [Option.some.injEq] at hc2
      subst hc2
      refine ⟨?_, ?_, ?_, ?_⟩
      · simpa using hsize
      · right
        simp only [setSem_sem, release_cur]
        rw [hcur]
        omega
      · intro h
        simp only [setSem_written] at h
        rw [hw] at h
        simp at h
      · intro _
        simpa using hw
    · rw [if_neg hqr] at hc2
      exact hI.recSt q c2 hc2
  · intro q c2 hc2 hcur2 k
    simp only [leaderExitState_recs] at hc2
    simp only [leaderExitState_calls]
    by_cases hqr : q = r
    · by_cases hkt : k = t.key
      · rw [if_pos hkt]
        simp
      · rw [if_neg hkt]
        intro hco
        rw [hqr] at hco
        obtain ⟨j0, t0, hj0, hk0, ho0⟩ := hI.callsOwner k r hco
        have hj0i : j0 = i := hI.ownerUniq j0 i t0 t r hj0 ht ho0 howner
        subst hj0i
        rw [ht] at hj0
        simp only [Option.some.injEq] at hj0
        subst hj0
        exact hkt hk0.symm
    · rw [if_neg hqr] at hc2
      by_cases hkt : k = t.key
      · rw [if_pos hkt]
        simp
      · rw [if_neg hkt]
        exact hI.openUnmapped q c2 hc2 hcur2 k

theorem inv_step [DecidableEq K] [Inhabited V] {s s' : SysState K V E}
    {evs : List (Ev K V E)} (hI : Inv s) (hS : Step s evs s') : Inv s' := by
  cases hS with
  | leaderEnter i t sem ht hp hk ha => exact inv_leaderEnter hI ht hp hk ha
  | followerEnter i t r ht hp hk => exact inv_followerEnter hI ht hp hk
  | followerAcquire i t r c sem ht hp hc ha =>
      exact inv_followerAcquire hI ht hp hc ha
  | followerCanceled i t r e ht hp hd => exact inv_followerCanceled hI ht hp
  | fnReturns i t r fc c v e ht hp hc hf => exact inv_fnReturns hI ht hp hc
  | fnPanics i t r fc ht hp hf => exact inv_fnPanics hI ht hp
  | leaderExit i t r c ht hp hc => exact inv_leaderExit hI ht hp hc
  | ctxCancel i t e ht hd => exact inv_ctxCancel hI ht

theorem inv_steps [DecidableEq K] [Inhabited V] {s s' : SysState K V E}
    {tr : List (Ev K V E)} (hI : Inv s) (hS : Steps s tr s') : Inv s' := by
  induction hS with
  | refl => exact hI
  | tail h1 h2 ih => exact inv_step ih h2

@[simp] theorem mkInit_recs {ts : Nat → Option (Thread K V E)} {r : Nat} :
    (mkInit ts).recs r = none := rfl

@[simp] theorem mkInit_nextRec {ts : Nat → Option (Thread K V E)} :
    (mkInit ts).nextRec = 0 := rfl

@[simp] theorem mkInit_calls {ts : Nat → Option (Thread K V E)} {k : K} :
    (mkInit ts).calls k = none := rfl

@[simp] theorem mkInit_threads {ts : Nat → Option (Thread K V E)} {i : Nat} :
    (mkInit ts).threads i = ts i := rfl

theorem inv_mkInit [Inhabited V] {ts : Nat → Option (Thread K V E)}
    (hready : ∀ i t, ts i = some t → t.phase = .ready) :
    Inv (mkInit ts) := by
  refine ⟨?_, ?_, ?_, ?_, ?_, ?_, ?_, ?_, ?_, ?_⟩
  · intro r hr; rfl
  · intro i t r hi hph
    rw [hready i t hi] at hph
    simp at hph
  · intro i t r hi hph
    rw [hready i t hi] at hph
    simp at hph
  · intro i t r fc hi hph
    rw [hready i t hi] at hph
    simp at hph
  · intro i t r hi hph
    rw [hready i t hi] at hph
    simp at hph
  · intro i t r hi hph
    rw [hready i t hi] at hph
    simp at hph
  · intro i j ti tj r hi hj ho ho'
    rw [hready i ti hi] at ho
    simp at ho
  · intro k r hkr
    simp at hkr
  · intro r c hc
    simp at hc
  · intro r c hc hcur k
    simp at hc

/-- TouchesRec says the event concerns record `r`. -/
def TouchesRec (r : Nat) : Ev K V E → Prop
  | .invoke _ _ q _ => q = r
  | .write q _ _ => q = r
  | .openGate q => q = r
  | .del _ q => q = r
  | .retShared _ q _ _ => q = r
  | .retCanceled _ _ _ => False
  | .cancel _ => False

@[simp] theorem isWriteOf_eq_true {r : Nat} {ev : Ev K V E} :
    isWriteOf r ev = true ↔ ∃ v e, ev = .write r v e := by
  cases ev <;> simp [isWriteOf]

@[simp] theorem isOpenGateOf_eq_true {r : Nat} {ev : Ev K V E} :
    isOpenGateOf r ev = true ↔ ev = .openGate r := by
  cases ev <;> simp [isOpenGateOf]

@[simp] theorem isDelOf_eq_true {r : Nat} {ev : Ev K V E} :
    isDelOf r ev = true ↔ ∃ k, ev = .del k r := by
  cases ev <;> simp [isDelOf]

theorem isAt_append_left {tr evs : List (Ev K V E)} {n : Nat} {p : Ev K V E → Bool}
    (h : IsAt tr n p) : IsAt (tr ++ evs) n p := by
  obtain ⟨a, ha, hp⟩ := h
  have hn : n < tr.length := (List.getElem?_eq_some_iff.mp ha).1
  exact ⟨a, by rw [List.getElem?_append_left hn]; exact ha, hp⟩

theorem isAt_append_right {tr evs : List (Ev K V E)} {m : Nat} {p : Ev K V E → Bool}
    (h : IsAt evs m p) : IsAt (tr ++ evs) (tr.length + m) p := by
  obtain ⟨a, ha, hp⟩ := h
  refine ⟨a, ?_, hp⟩
  rw [List.getElem?_append_right (by omega)]
  have hm : tr.length + m - tr.length = m := by omega
  rw [hm]
  exact ha

theorem isAt_append_cases {tr evs : List (Ev K V E)} {n : Nat} {p : Ev K V E → Bool}
    (h : IsAt (tr ++ evs) n p) :
    IsAt tr n p ∨ ∃ m, n = tr.length + m ∧ IsAt evs m p := by
  obtain ⟨a, ha, hp⟩ := h
  by_cases hn : n < tr.length
  · left
    exact ⟨a, by rw [List.getElem?_append_left hn] at ha; exact ha, hp⟩
  · right
    refine ⟨n - tr.length, by omega, a, ?_, hp⟩
    rw [List.getElem?_append_right (by omega)] at ha
    exact ha

theorem isAt_of_mem {tr : List (Ev K V E)} {a : Ev K V E} {p : Ev K V E → Bool}
    (hmem : a ∈ tr) (hp : p a = true) : ∃ n, n < tr.length ∧ IsAt tr n p := by
  obtain ⟨n, hn⟩ := List.getElem?_of_mem hmem
  exact ⟨n, (List.getElem?_eq_some_iff.mp hn).1, a, hn, hp⟩

theorem mem_of_isAt {evs : List (Ev K V E)} {m : Nat} {p : Ev K V E → Bool}
    (h : IsAt evs m p) : ∃ a ∈ evs, p a = true := by
  obtain ⟨a, ha, hp⟩ := h
  exact ⟨a, List.mem_iff_getElem?.mpr ⟨m, ha⟩, hp⟩

theorem precedes_append {tr evs : List (Ev K V E)} {p q : Ev K V E → Bool}
    (hpre : Precedes p q tr)
    (hnew : ∀ m, IsAt evs m q →
      (∃ a ∈ tr, p a = true) ∨ ∃ m2, m2 < m ∧ IsAt evs m2 p) :
    Precedes p q (tr ++ evs) := by
  intro j hj
  rcases isAt_append_cases hj with hL | ⟨m, rfl, hm⟩
  · obtain ⟨i, hij, hi⟩ := hpre j hL
    exact ⟨i, hij, isAt_append_left hi⟩
  · rcases hnew m hm with ⟨a, hmem, hpa⟩ | ⟨m2, hm2, hp2⟩
    · obtain ⟨n, hn, hAt⟩ := isAt_of_mem hmem hpa
      exact ⟨n, by omega, isAt_append_left hAt⟩
    · exact ⟨tr.length + m2, by omega, isAt_append_right hp2⟩

theorem precedes_append_no_q {tr evs : List (Ev K V E)} {p q : Ev K V E → Bool}
    (hpre : Precedes p q tr) (hq : ∀ a ∈ evs, ¬ q a = true) :
    Precedes p q (tr ++ evs) := by
  refine precedes_append hpre ?_
  intro m hm
  obtain ⟨a, hmem, hpa⟩ := mem_of_isAt hm
  exact absurd hpa (hq a hmem)

theorem isAt_singleton {a : Ev K V E} {m : Nat} {p : Ev K V E → Bool}
    (h : IsAt [a] m p) : m = 0 ∧ p a = true := by
  obtain ⟨b, hb, hpb⟩ := h
  rcases m with _ | m
  · simp only [List.getElem?_cons_zero, Option.some.injEq] at hb
    subst hb
    exact ⟨rfl, hpb⟩
  · simp at hb

theorem isAt_triple {a b c : Ev K V E} {m : Nat} {p : Ev K V E → Bool}
    (h : IsAt [a, b, c] m p) :
    (m = 0 ∧ p a = true) ∨ (m = 1 ∧ p b = true) ∨ (m = 2 ∧ p c = true) := by
  obtain ⟨x, hx, hpx⟩ := h
  rcases m with _ | _ | _ | m
  · simp only [List.getElem?_cons_zero, Option.some.injEq] at hx
    subst hx
    exact Or.inl ⟨rfl, hpx⟩
  · simp only [List.getElem?_cons_succ, List.getElem?_cons_zero,
      Option.some.injEq] at hx
    subst hx
    exact Or.inr (Or.inl ⟨rfl, hpx⟩)
  · simp only [List.getElem?_cons_succ, List.getElem?_cons_zero,
      Option.some.injEq] at hx
    subst hx
    exact Or.inr (Or.inr ⟨rfl, hpx⟩)
  · simp at hx

/-- Hist relates a reachable state to the trace that produced it (from an
initial state): a record never allocated has no events; an unwritten
record has no write event and a written one exactly the write of its slot
contents, which came from the unique invocation of `fn` under it; a
closed record has no gate-open, no deletion and no shared return; the
number of gate-open events is 0 while closed and 1 once open; every
shared return carries exactly the record's slot contents; a running
leader's invocation is on the trace; and per record, the slot write
precedes the gate-open, which precedes the registry deletion. -/
structure Hist [Inhabited V] (tr : List (Ev K V E)) (s : SysState K V E) : Prop where
  noGhost : ∀ r, s.recs r = none → ∀ ev ∈ tr, ¬ TouchesRec r ev
  wNone : ∀ r c, s.recs r = some c → c.written = false →
    ∀ v e, Ev.write r v e ∉ tr
  wVal : ∀ r c, s.recs r = some c → c.written = true →
    ∀ v e, (Ev.write r v e ∈ tr ↔ v = c.val ∧ e = c.err)
  wFn : ∀ r c, s.recs r = some c → c.written = true →
    ∃ i fc t, s.threads i = some t ∧ Ev.invoke i t.key r fc ∈ tr ∧
      t.fn fc = FnOutcome.ok c.val c.err
  closedNo : ∀ r c, s.recs r = some c → c.sem.cur ≠ 0 →
    (Ev.openGate r ∉ tr) ∧ (∀ k, Ev.del k r ∉ tr) ∧
    (∀ j v e, Ev.retShared j r v e ∉ tr)
  openCount : ∀ r c, s.recs r = some c →
    tr.countP (isOpenGateOf r) = (if c.sem.cur = 0 then 1 else 0)
  shared : ∀ j r v e, Ev.retShared j r v e ∈ tr →
    ∃ c, s.recs r = some c ∧ v = c.val ∧ e = c.err ∧ c.written = true
  runInvoked : ∀ i t r fc, s.threads i = some t → t.phase = .leaderRun r fc →
    Ev.invoke i t.key r fc ∈ tr
  ordWO : ∀ r, Precedes (isWriteOf r) (isOpenGateOf r) tr
  ordOD : ∀ r, Precedes (isOpenGateOf r) (isDelOf r) tr

theorem hist_mkInit [Inhabited V] {ts : Nat → Option (Thread K V E)}
    (hready : ∀ i t, ts i = some t → t.phase = .ready) :
    Hist ([] : List (Ev K V E)) (mkInit ts) := by
  refine ⟨?_, ?_, ?_, ?_, ?_, ?_, ?_, ?_, ?_, ?_⟩
  · intro r hr ev hev
    simp at hev
  · intro r c hc
    simp at hc
  · intro r c hc
    simp at hc
  · intro r c hc
    simp at hc
  · intro r c hc
    simp at hc
  · intro r c hc
    simp at hc
  · intro j r v e hmem
    simp at hmem
  · intro i t r fc hi hp
    rw [hready i t hi] at hp
    simp at hp
  · intro r j hj
    obtain ⟨a, ha, hp⟩ := hj
    simp at ha
  · intro r j hj
    obtain ⟨a, ha, hp⟩ := hj
    simp at ha

theorem hist_setThread [DecidableEq K] [Inhabited V] {s : SysState K V E}
    {tr evs : List (Ev K V E)} {i : Nat} {t t' : Thread K V E}
    (hH : Hist tr s) (ht : s.threads i = some t)
    (hkey : t'.key = t.key) (hfn : t'.fn = t.fn)
    (hrun : ∀ r fc, t'.phase = .leaderRun r fc → t.phase = .leaderRun r fc)
    (hevs : ∀ ev ∈ evs, ∀ r, ¬ TouchesRec r ev) :
    Hist (tr ++ evs) (setThread s i t') := by
  refine ⟨?_, ?_, ?_, ?_, ?_, ?_, ?_, ?_, ?_, ?_⟩
  · intro r hr ev hev
    simp only [setThread_recs] at hr
    rcases List.mem_append.mp hev with h | h
    · exact hH.noGhost r hr ev h
    · exact hevs ev h r
  · intro r c hc hw v e hmem
    simp only [setThread_recs] at hc
    rcases List.mem_append.mp hmem with h | h
    · exact hH.wNone r c hc hw v e h
    · exact hevs _ h r (by simp [TouchesRec])
  · intro r c hc hw v e
    simp only [setThread_recs] at hc
    constructor
    · intro hmem
      rcases List.mem_append.mp hmem with h | h
      · exact (hH.wVal r c hc hw v e).mp h
      · exact absurd (show TouchesRec r (Ev.write r v e) by simp [TouchesRec])
          (hevs _ h r)
    · intro hve
      exact List.mem_append.mpr (Or.inl ((hH.wVal r c hc hw v e).mpr hve))
  · intro r c hc hw
    simp only [setThread_recs] at hc
    obtain ⟨i0, fc, t0, hti0, hinv, hfn0⟩ := hH.wFn r c hc hw
    by_cases hi0 : i0 = i
    · subst hi0
      rw [ht] at hti0
      simp only [Option.some.injEq] at hti0
      subst hti0
      refine ⟨i0, fc, t', ?_, ?_, ?_⟩
      · simp
      · rw [hkey]
        exact List.mem_append.mpr (Or.inl hinv)
      · rw [hfn]
        exact hfn0
    · refine ⟨i0, fc, t0, ?_, List.mem_append.mpr (Or.inl hinv), hfn0⟩
      simp only [setThread_threads]
      rw [if_neg hi0]
      exact hti0
  · intro r c hc hcur
    simp only [setThread_recs] at hc
    obtain ⟨h1, h2, h3⟩ := hH.closedNo r c hc hcur
    refine ⟨?_, ?_, ?_⟩
    · intro hmem
      rcases List.mem_append.mp hmem with h | h
      · exact h1 h
      · exact hevs _ h r (by simp [TouchesRec])
    · intro k hmem
      rcases List.mem_append.mp hmem with h | h
      · exact h2 k h
      · exact hevs _ h r (by simp [TouchesRec])
    · intro j v e hmem
      rcases List.mem_append.mp hmem with h | h
      · exact h3 j v e h
      · exact hevs _ h r (by simp [TouchesRec])
  · intro r c hc
    simp only [setThread_recs] at hc
    rw [List.countP_append, hH.openCount r c hc]
    have hz : evs.countP (isOpenGateOf r) = 0 := by
      rw [List.countP_eq_zero]
      intro a ha hpa
      rw [isOpenGateOf_eq_true] at hpa
      subst hpa
      exact hevs _ ha r (by simp [TouchesRec])
    omega
  · intro j r v e hmem
    rcases List.mem_append.mp hmem with h | h
    · obtain ⟨c, hc, hv, he, hw⟩ := hH.shared j r v e h
      exact ⟨c, hc, hv, he, hw⟩
    · exact absurd (show TouchesRec r (Ev.retShared j r v e) by simp [TouchesRec])
        (hevs _ h r)
  · intro i1 t1 r fc ht1 hp1
    simp only [setThread_threads] at ht1
    by_cases hi1 : i1 = i
    · rw [if_pos hi1] at ht1
      simp only [Option.some.injEq] at ht1
      subst ht1
      rw [hi1, hkey]
      exact List.mem_append.mpr (Or.inl (hH.runInvoked i t r fc ht (hrun r fc hp1)))
    · rw [if_neg hi1] at ht1
      exact List.mem_append.mpr (Or.inl (hH.runInvoked i1 t1 r fc ht1 hp1))
  · intro r
    refine precedes_append_no_q (hH.ordWO r) ?_
    intro a ha hqa
    rw [isOpenGateOf_eq_true] at hqa
    subst hqa
    exact hevs _ ha r (by simp [TouchesRec])
  · intro r
    refine precedes_append_no_q (hH.ordOD r) ?_
    intro a ha hqa
    rw [isDelOf_eq_true] at hqa
    obtain ⟨k, rfl⟩ := hqa
    exact hevs _ ha r (by simp [TouchesRec])

theorem hist_followerEnter [DecidableEq K] [Inhabited V] {s : SysState K V E}
    {tr : List (Ev K V E)} {i : Nat} {t : Thread K V E} {r : Nat}
    (hH : Hist tr s) (ht : s.threads i = some t) :
    Hist (tr ++ []) (setThread s i (setPhase t (.followerWait r))) := by
  refine hist_setThread hH ht (by simp) (by simp) ?_ ?_
  · intro q fc h
    simp at h
  · intro ev hev
    simp at hev

theorem hist_followerCanceled [DecidableEq K] [Inhabited V] {s : SysState K V E}
    {tr : List (Ev K V E)} {i : Nat} {t : Thread K V E} {e : E}
    (hH : Hist tr s) (ht : s.threads i = some t) :
    Hist (tr ++ [.retCanceled i default (some e)])
      (setThread s i (setPhase t (.returned default (some e)))) := by
  refine hist_setThread hH ht (by simp) (by simp) ?_ ?_
  · intro q fc h
    simp at h
  · intro ev hev r
    simp only [List.mem_singleton] at hev
    subst hev
    simp [TouchesRec]

theorem hist_fnPanics [DecidableEq K] [Inhabited V] {s : SysState K V E}
    {tr : List (Ev K V E)} {i : Nat} {t : Thread K V E} {r : Nat}
    (hH : Hist tr s) (ht : s.threads i = some t) :
    Hist (tr ++ []) (setThread s i (setPhase t (.panicked r))) := by
  refine hist_setThread hH ht (by simp) (by simp) ?_ ?_
  · intro q fc h
    simp at h
  · intro ev hev
    simp at hev

theorem hist_leaderEnter [DecidableEq K] [Inhabited V] {s : SysState K V E}
    {tr : List (Ev K V E)} {i : Nat} {t : Thread K V E} {sem : Weighted}
    (hI : Inv s) (hH : Hist tr s) (ht : s.threads i = some t)
    (ha : tryAcquire (newWeighted writerWeight) writerWeight = some sem) :
    Hist (tr ++ [.invoke i t.key s.nextRec (withValue t.ctx t.key)])
      (leaderEnterState s i t sem) := by
  obtain ⟨hle, hsem⟩ := tryAcquire_some ha
  have hsem2 : sem = ⟨(writerWeight : Int), (writerWeight : Int)⟩ := by
    rw [hsem]; simp [newWeighted]
  subst hsem2
  have hN : s.recs s.nextRec = none := hI.fresh s.nextRec (le_refl _)
  have hWne : ((writerWeight : Int)) ≠ 0 := by
    have := writerWeight_pos
    omega
  refine ⟨?_, ?_, ?_, ?_, ?_, ?_, ?_, ?_, ?_, ?_⟩
  · intro r hr ev hev
    simp only [leaderEnterState_recs] at hr
    by_cases hrn : r = s.nextRec
    · rw [if_pos hrn] at hr
      simp at hr
    · rw [if_neg hrn] at hr
      rcases List.mem_append.mp hev with h | h
      · exact hH.noGhost r hr ev h
      · simp only [List.mem_singleton] at h
        subst h
        simp only [TouchesRec]
        exact fun h2 => hrn h2.symm
  · intro r c hc hw v e hmem
    simp only [leaderEnterState_recs] at hc
    by_cases hrn : r = s.nextRec
    · rcases List.mem_append.mp hmem with h | h
      · have hng := hH.noGhost s.nextRec hN _ h
        simp only [TouchesRec] at hng
        exact hng hrn
      · simp at h
    · rw [if_neg hrn] at hc
      rcases List.mem_append.mp hmem with h | h
      · exact hH.wNone r c hc hw v e h
      · simp at h
  · intro r c hc hw v e
    simp only [leaderEnterState_recs] at hc
    by_cases hrn : r = s.nextRec
    · rw [if_pos hrn] at hc
      simp only [Option.some.injEq] at hc
      subst hc
      simp at hw
    · rw [if_neg hrn] at hc
      constructor
      · intro hmem
        rcases List.mem_append.mp hmem with h | h
        · exact (hH.wVal r c hc hw v e).mp h
        · simp at h
      · intro hve
        exact List.mem_append.mpr (Or.inl ((hH.wVal r c hc hw v e).mpr hve))
  · intro r c hc hw
    simp only [leaderEnterState_recs] at hc
    by_cases hrn : r = s.nextRec
    · rw [if_pos hrn] at hc
      simp only [Option.some.injEq] at hc
      subst hc
      simp at hw
    · rw [if_neg hrn] at hc
      obtain ⟨i0, fc, t0, hti0, hinv, hfn0⟩ := hH.wFn r c hc hw
      by_cases hi0 : i0 = i
      · subst hi0
        rw [ht] at hti0
        simp only [Option.some.injEq] at hti0
        subst hti0
        refine ⟨i0, fc,
          setPhase t (.leaderRun s.nextRec (withValue t.ctx t.key)), ?_, ?_, ?_⟩
        · simp [leaderEnterState_threads]
        · simp only [setPhase_key]
          exact List.mem_append.mpr (Or.inl hinv)
        · simpa using hfn0
      · refine ⟨i0, fc, t0, ?_, List.mem_append.mpr (Or.inl hinv), hfn0⟩
        simp only [leaderEnterState_threads]
        rw [if_neg hi0]
        exact hti0
  · intro r c hc hcur
    simp only [leaderEnterState_recs] at hc
    by_cases hrn : r = s.nextRec
    · rw [if_pos hrn] at hc
      refine ⟨?_, ?_, ?_⟩
      · intro hmem
        rcases List.mem_append.mp hmem with h | h
        · have hng := hH.noGhost s.nextRec hN _ h
          simp only [TouchesRec] at hng
          exact hng hrn
        · simp at h
      · intro k hmem
        rcases List.mem_append.mp hmem with h | h
        · have hng := hH.noGhost s.nextRec hN _ h
          simp only [TouchesRec] at hng
          exact hng hrn
        · simp at h
      · intro j v e hmem
        rcases List.mem_append.mp hmem with h | h
        · have hng := hH.noGhost s.nextRec hN _ h
          simp only [TouchesRec] at hng
          exact hng hrn
        · simp at h
    · rw [if_neg hrn] at hc
      obtain ⟨h1, h2, h3⟩ := hH.closedNo r c hc hcur
      refine ⟨?_, ?_, ?_⟩
      · intro hmem
        rcases List.mem_append.mp hmem with h | h
        · exact h1 h
        · simp at h
      · intro k hmem
        rcases List.mem_append.mp hmem with h | h
        · exact h2 k h
        · simp at h
      · intro j v e hmem
        rcases List.mem_append.mp hmem with h | h
        · exact h3 j v e h
        · simp at h
  · intro r c hc
    simp only [leaderEnterState_recs] at hc
    rw [List.countP_append]
    have hz : List.countP (isOpenGateOf r)
        ([Ev.invoke i t.key s.nextRec (withValue t.ctx t.key)] : List (Ev K V E)) = 0 := by
      rw [List.countP_eq_zero]
      intro a ha hpa
      simp only [List.mem_singleton] at ha
      subst ha
      rw [isOpenGateOf_eq_true] at hpa
      simp at hpa
    rw [hz]
    by_cases hrn : r = s.nextRec
    · rw [if_pos hrn] at hc
      simp only [Option.some.injEq] at hc
      subst hc
      have h0 : List.countP (isOpenGateOf r) tr = 0 := by
        rw [List.countP_eq_zero]
        intro a ha hpa
        rw [isOpenGateOf_eq_true] at hpa
        subst hpa
        have hng := hH.noGhost s.nextRec hN _ ha
        simp only [TouchesRec] at hng
        exact hng hrn
      rw [h0]
      simp [hWne]
    · rw [if_neg hrn] at hc
      rw [hH.openCount r c hc]
      omega
  · intro j r v e hmem
    rcases List.mem_append.mp hmem with h | h
    · obtain ⟨c, hc, hv, he, hw⟩ := hH.shared j r v e h
      refine ⟨c, ?_, hv, he, hw⟩
      simp only [leaderEnterState_recs]
      rw [if_neg ?_]
      · exact hc
      · intro hrn
        rw [hrn, hN] at hc
        exact Option.noConfusion hc
    · simp at h
  · intro i1 t1 r fc ht1 hp1
    simp only [leaderEnterState_threads] at ht1
    by_cases hi1 : i1 = i
    · rw [if_pos hi1] at ht1
      simp only [Option.some.injEq] at ht1
      subst ht1
      simp only [setPhase_phase] at hp1
      obtain ⟨hr, hfc⟩ : s.nextRec = r ∧ withValue t.ctx t.key = fc := by
        simpa using hp1
      subst hr
      subst hfc
      rw [hi1]
      simp only [setPhase_key]
      exact List.mem_append.mpr (Or.inr (by simp))
    · rw [if_neg hi1] at ht1
      exact List.mem_append.mpr (Or.inl (hH.runInvoked i1 t1 r fc ht1 hp1))
  · intro r
    refine precedes_append_no_q (hH.ordWO r) ?_
    intro a ha hqa
    simp only [List.mem_singleton] at ha
    subst ha
    rw [isOpenGateOf_eq_true] at hqa
    simp at hqa
  · intro r
    refine precedes_append_no_q (hH.ordOD r) ?_
    intro a ha hqa
    simp only [List.mem_singleton] at ha
    subst ha
    rw [isDelOf_eq_true] at hqa
    obtain ⟨k, hk⟩ := hqa
    simp at hk

theorem hist_followerAcquire [DecidableEq K] [Inhabited V] {s : SysState K V E}
    {tr : List (Ev K V E)} {i : Nat} {t : Thread K V E} {r : Nat} {c : call V E}
    {sem : Weighted}
    (hI : Inv s) (hH : Hist tr s) (ht : s.threads i = some t)
    (hc : s.recs r = some c) (ha : tryAcquire c.sem readerWeight = some sem) :
    Hist (tr ++ [.retShared i r c.val c.err])
      (setRec (setThread s i (setPhase t (.returned c.val c.err))) r
        (setSem c (sem.release readerWeight))) := by
  obtain ⟨hle, hsem⟩ := tryAcquire_some ha
  obtain ⟨hsize, hcurOr, hunw, hzw⟩ := hI.recSt r c hc
  have hcur0 : c.sem.cur = 0 := by
    rcases hcurOr with h | h
    · exfalso
      rw [hsize, h, readerWeight_eq] at hle
      have := writerWeight_pos
      omega
    · exact h
  have hw : c.written = true := hzw hcur0
  have hrec : setSem c (sem.release readerWeight) = c := by
    subst hsem
    cases c with
    | mk csem cval cerr cw =>
      cases csem with
      | mk sz cu => simp [setSem, Weighted.release]
  rw [hrec, setRec_self (by simp only [setThread_recs]; exact hc)]
  refine ⟨?_, ?_, ?_, ?_, ?_, ?_, ?_, ?_, ?_, ?_⟩
  · intro q hq ev hev
    simp only [setThread_recs] at hq
    rcases List.mem_append.mp hev with h | h
    · exact hH.noGhost q hq ev h
    · simp only [List.mem_singleton] at h
      subst h
      simp only [TouchesRec]
      intro h2
      rw [h2, hq] at hc
      exact Option.noConfusion hc
  · intro q c2 hc2 hw2 v e hmem
    simp only [setThread_recs] at hc2
    rcases List.mem_append.mp hmem with h | h
    · exact hH.wNone q c2 hc2 hw2 v e h
    · simp at h
  · intro q c2 hc2 hw2 v e
    simp only [setThread_recs] at hc2
    constructor
    · intro hmem
      rcases List.mem_append.mp hmem with h | h
      · exact (hH.wVal q c2 hc2 hw2 v e).mp h
      · simp at h
    · intro hve
      exact List.mem_append.mpr (Or.inl ((hH.wVal q c2 hc2 hw2 v e).mpr hve))
  · intro q c2 hc2 hw2
    simp only [setThread_recs] at hc2
    obtain ⟨i0, fc, t0, hti0, hinv, hfn0⟩ := hH.wFn q c2 hc2 hw2
    by_cases hi0 : i0 = i
    · subst hi0
      rw [ht] at hti0
      simp only [Option.some.injEq] at hti0
      subst hti0
      refine ⟨i0, fc, setPhase t (.returned c.val c.err), ?_, ?_, ?_⟩
      · simp
      · simp only [setPhase_key]
        exact List.mem_append.mpr (Or.inl hinv)
      · simpa using hfn0
    · refine ⟨i0, fc, t0, ?_, List.mem_append.mpr (Or.inl hinv), hfn0⟩
      simp only [setThread_threads]
      rw [if_neg hi0]
      exact hti0
  · intro q c2 hc2 hcur2
    simp only [setThread_recs] at hc2
    obtain ⟨h1, h2, h3⟩ := hH.closedNo q c2 hc2 hcur2
    have hqr : q ≠ r := by
      intro hh
      subst hh
      rw [hc] at hc2
      simp only [Option.some.injEq] at hc2
      subst hc2
      exact hcur2 hcur0
    refine ⟨?_, ?_, ?_⟩
    · intro hmem
      rcases List.mem_append.mp hmem with h | h
      · exact h1 h
      · simp at h
    · intro k hmem
      rcases List.mem_append.mp hmem with h | h
      · exact h2 k h
      · simp at h
    · intro j v e hmem
      rcases List.mem_append.mp hmem with h | h
      · exact h3 j v e h
      · simp only [List.mem_singleton, Ev.retShared.injEq] at h
        exact hqr h.2.1
  · intro q c2 hc2
    simp only [setThread_recs] at hc2
    rw [List.countP_append, hH.openCount q c2 hc2]
    have hz : List.countP (isOpenGateOf q)
        ([Ev.retShared i r c.val c.err] : List (Ev K V E)) = 0 := by
      rw [List.countP_eq_zero]
      intro a ha hpa
      simp only [List.mem_singleton] at ha
      subst ha
      rw [isOpenGateOf_eq_true] at hpa
      simp at hpa
    rw [hz]
    omega
  · intro j q v e hmem
    rcases List.mem_append.mp hmem with h | h
    · obtain ⟨c2, hc2, hv, he, hw2⟩ := hH.shared j q v e h
      exact ⟨c2, hc2, hv, he, hw2⟩
    · simp only [List.mem_singleton, Ev.retShared.injEq] at h
      obtain ⟨h1, h2, h3, h4⟩ := h
      subst h2
      exact ⟨c, hc, h3, h4, hw⟩
  · intro i1 t1 q fc ht1 hp1
    simp only [setThread_threads] at ht1
    by_cases hi1 : i1 = i
    · rw [if_pos hi1] at ht1
      simp only [Option.some.injEq] at ht1
      subst ht1
      simp at hp1
    · rw [if_neg hi1] at ht1
      exact List.mem_append.mpr (Or.inl (hH.runInvoked i1 t1 q fc ht1 hp1))
  · intro q
    refine precedes_append_no_q (hH.ordWO q) ?_
    intro a ha hqa
    simp only [List.mem_singleton] at ha
    subst ha
    rw [isOpenGateOf_eq_true] at hqa
    simp at hqa
  · intro q
    refine precedes_append_no_q (hH.ordOD q) ?_
    intro a ha hqa
    simp only [List.mem_singleton] at ha
    subst ha
    rw [isDelOf_eq_true] at hqa
    obtain ⟨k, hk⟩ := hqa
    simp at hk

theorem hist_fnReturns [DecidableEq K] [Inhabited V] {s : SysState K V E}
    {tr : List (Ev K V E)} {i : Nat} {t : Thread K V E} {r : Nat} {fc : Ctx K E}
    {c : call V E} {v : V} {e : Option E}
    (hI : Inv s) (hH : Hist tr s) (ht : s.threads i = some t)
    (hp : t.phase = .leaderRun r fc) (hc : s.recs r = some c)
    (hf : t.fn fc = .ok v e) :
    Hist (tr ++ [.write r v e])
      (setRec (setThread s i (setPhase t (.leaderFinish r))) r (storeResult c v e)) := by
  obtain ⟨hsf, c', hc', hcur, hwf⟩ := hI.runSt i t r fc ht hp
  have hcc : c = c' := by rw [hc] at hc'; exact (Option.some.injEq _ _).mp hc'
  subst hcc
  have hWne : c.sem.cur ≠ 0 := by
    rw [hcur]
    have := writerWeight_pos
    omega
  have hnoW : ∀ v' e', Ev.write r v' e' ∉ tr := hH.wNone r c hc hwf
  have hinv0 : Ev.invoke i t.key r fc ∈ tr := hH.runInvoked i t r fc ht hp
  obtain ⟨hno1, hno2, hno3⟩ := hH.closedNo r c hc hWne
  refine ⟨?_, ?_, ?_, ?_, ?_, ?_, ?_, ?_, ?_, ?_⟩
  · intro q hq ev hev
    simp only [setRec_recs, setThread_recs] at hq
    by_cases hqr : q = r
    · rw [if_pos hqr] at hq
      simp at hq
    · rw [if_neg hqr] at hq
      rcases List.mem_append.mp hev with h | h
      · exact hH.noGhost q hq ev h
      · simp only [List.mem_singleton] at h
        subst h
        simp only [TouchesRec]
        exact fun h2 => hqr h2.symm
  · intro q c2 hc2 hw2 v' e' hmem
    simp only [setRec_recs, setThread_recs] at hc2
    by_cases hqr : q = r
    · rw [if_pos hqr] at hc2
      simp only [Option.some.injEq] at hc2
      subst hc2
      simp at hw2
    · rw [if_neg hqr] at hc2
      rcases List.mem_append.mp hmem with h | h
      · exact hH.wNone q c2 hc2 hw2 v' e' h
      · simp only [List.mem_singleton, Ev.write.injEq] at h
        exact hqr h.1
  · intro q c2 hc2 hw2 v' e'
    simp only [setRec_recs, setThread_recs] at hc2
    by_cases hqr : q = r
    · rw [if_pos hqr] at hc2
      simp only [Option.some.injEq] at hc2
      subst hc2
      subst hqr
      constructor
      · intro hmem
        rcases List.mem_append.mp hmem with h | h
        · exact absurd h (hnoW v' e')
        · simp only [List.mem_singleton, Ev.write.injEq] at h
          simpa using ⟨h.2.1, h.2.2⟩
      · intro hve
        obtain ⟨hv, he⟩ := hve
        simp only [storeResult_val] at hv
        simp only [storeResult_err] at he
        subst hv
        subst he
        exact List.mem_append.mpr (Or.inr (by simp))
    · rw [if_neg hqr] at hc2
      constructor
      · intro hmem
        rcases List.mem_append.mp hmem with h | h
        · exact (hH.wVal q c2 hc2 hw2 v' e').mp h
        · simp only [List.mem_singleton, Ev.write.injEq] at h
          exact absurd h.1 hqr
      · intro hve
        exact List.mem_append.mpr (Or.inl ((hH.wVal q c2 hc2 hw2 v' e').mpr hve))
  · intro q c2 hc2 hw2
    simp only [setRec_recs, setThread_recs] at hc2
    by_cases hqr : q = r
    · rw [if_pos hqr] at hc2
      simp only [Option.some.injEq] at hc2
      subst hc2
      subst hqr
      refine ⟨i, fc, setPhase t (.leaderFinish q), ?_, ?_, ?_⟩
      · simp
      · simp only [setPhase_key]
        exact List.mem_append.mpr (Or.inl hinv0)
      · simpa using hf
    · rw [if_neg hqr] at hc2
      obtain ⟨i0, fc0, t0, hti0, hinv, hfn0⟩ := hH.wFn q c2 hc2 hw2
      by_cases hi0 : i0 = i
      · subst hi0
        rw [ht] at hti0
        simp only [Option.some.injEq] at hti0
        subst hti0
        refine ⟨i0, fc0, setPhase t (.leaderFinish r), ?_, ?_, ?_⟩
        · simp
        · simp only [setPhase_key]
          exact List.mem_append.mpr (Or.inl hinv)
        · simpa using hfn0
      · refine ⟨i0, fc0, t0, ?_, List.mem_append.mpr (Or.inl hinv), hfn0⟩
        simp only [setRec_threads, setThread_threads]
        rw [if_neg hi0]
        exact hti0
  · intro q c2 hc2 hcur2
    simp only [setRec_recs, setThread_recs] at hc2
    by_cases hqr : q = r
    · subst hqr
      rw [if_pos rfl] at hc2
      simp only [Option.some.injEq] at hc2
      subst hc2
      refine ⟨?_, ?_, ?_⟩
      · intro hmem
        rcases List.mem_append.mp hmem with h | h
        · exact hno1 h
        · simp at h
      · intro k hmem
        rcases List.mem_append.mp hmem with h | h
        · exact hno2 k h
        · simp at h
      · intro j v' e' hmem
        rcases List.mem_append.mp hmem with h | h
        · exact hno3 j v' e' h
        · simp at h
    · rw [if_neg hqr] at hc2
      obtain ⟨h1, h2, h3⟩ := hH.closedNo q c2 hc2 hcur2
      refine ⟨?_, ?_, ?_⟩
      · intro hmem
        rcases List.mem_append.mp hmem with h | h
        · exact h1 h
        · simp at h
      · intro k hmem
        rcases List.mem_append.mp hmem with h | h
        · exact h2 k h
        · simp at h
      · intro j v' e' hmem
        rcases List.mem_append.mp hmem with h | h
        · exact h3 j v' e' h
        · simp at h
  · intro q c2 hc2
    simp only [setRec_recs, setThread_recs] at hc2
    rw [List.countP_append]
    have hz : List.countP (isOpenGateOf q)
        ([Ev.write r v e] : List (Ev K V E)) = 0 := by
      rw [List.countP_eq_zero]
      intro a ha hpa
      simp only [List.mem_singleton] at ha
      subst ha
      rw [isOpenGateOf_eq_true] at hpa
      simp at hpa
    rw [hz]
    by_cases hqr : q = r
    · subst hqr
      rw [if_pos rfl] at hc2
      simp only [Option.some.injEq] at hc2
      subst hc2
      simp only [storeResult_sem]
      rw [hH.openCount q c hc]
      omega
    · rw [if_neg hqr] at hc2
      rw [hH.openCount q c2 hc2]
      omega
  · intro j q v' e' hmem
    rcases List.mem_append.mp hmem with h | h
    · obtain ⟨c2, hc2, hv, he, hw2⟩ := hH.shared j q v' e' h
      by_cases hqr : q = r
      · subst hqr
        exact absurd h (hno3 j v' e')
      · refine ⟨c2, ?_, hv, he, hw2⟩
        simp only [setRec_recs, setThread_recs]
        rw [if_neg hqr]
        exact hc2
    · simp at h
  · intro i1 t1 q fc1 ht1 hp1
    simp only [setRec_threads, setThread_threads] at ht1
    by_cases hi1 : i1 = i
    · rw [if_pos hi1] at ht1
      simp only [Option.some.injEq] at ht1
      subst ht1
      simp at hp1
    · rw [if_neg hi1] at ht1
      exact List.mem_append.mpr (Or.inl (hH.runInvoked i1 t1 q fc1 ht1 hp1))
  · intro q
    refine precedes_append_no_q (hH.ordWO q) ?_
    intro a ha hqa
    simp only [List.mem_singleton] at ha
    subst ha
    rw [isOpenGateOf_eq_true] at hqa
    simp at hqa
  · intro q
    refine precedes_append_no_q (hH.ordOD q) ?_
    intro a ha hqa
    simp only [List.mem_singleton] at ha
    subst ha
    rw [isDelOf_eq_true] at hqa
    obtain ⟨k, hk⟩ := hqa
    simp at hk

theorem hist_leaderExit [DecidableEq K] [Inhabited V] {s : SysState K V E}
    {tr : List (Ev K V E)} {i : Nat} {t : Thread K V E} {r : Nat} {c : call V E}
    (hI : Inv s) (hH : Hist tr s) (ht : s.threads i = some t)
    (hp : t.phase = .leaderFinish r) (hc : s.recs r = some c) :
    Hist (tr ++ [.openGate r, .del t.key r, .retShared i r c.val c.err])
      (leaderExitState s i t r c) := by
  obtain ⟨c', hc', hcur, hw⟩ := hI.finSt i t r ht hp
  have hcc : c = c' := by rw [hc] at hc'; exact (Option.some.injEq _ _).mp hc'
  subst hcc
  have hWne : c.sem.cur ≠ 0 := by
    rw [hcur]
    have := writerWeight_pos
    omega
  obtain ⟨hno1, hno2, hno3⟩ := hH.closedNo r c hc hWne
  have hwmem : Ev.write r c.val c.err ∈ tr :=
    (hH.wVal r c hc hw c.val c.err).mpr ⟨rfl, rfl⟩
  have hcnt : List.countP (isOpenGateOf r) tr = 0 := by
    rw [hH.openCount r c hc]
    simp [hWne]
  have hcur1 : (setSem c (c.sem.release writerWeight)).sem.cur = 0 := by
    simp only [setSem_sem, release_cur]
    rw [hcur]
    exact sub_self _
  refine ⟨?_, ?_, ?_, ?_, ?_, ?_, ?_, ?_, ?_, ?_⟩
  · intro q hq ev hev
    simp only [leaderExitState_recs] at hq
    by_cases hqr : q = r
    · rw [if_pos hqr] at hq
      simp at hq
    · rw [if_neg hqr] at hq
      rcases List.mem_append.mp hev with h | h
      · exact hH.noGhost q hq ev h
      · simp only [List.mem_cons, List.not_mem_nil, or_false] at h
        rcases h with h | h | h
        all_goals subst h
        all_goals simp only [TouchesRec]
        all_goals exact fun h2 => hqr h2.symm
  · intro q c2 hc2 hw2 v' e' hmem
    simp only [leaderExitState_recs] at hc2
    by_cases hqr : q = r
    · rw [if_pos hqr] at hc2
      simp only [Option.some.injEq] at hc2
      subst hc2
      simp only [setSem_written] at hw2
      rw [hw] at hw2
      simp at hw2
    · rw [if_neg hqr] at hc2
      rcases List.mem_append.mp hmem with h | h
      · exact hH.wNone q c2 hc2 hw2 v' e' h
      · simp at h
  · intro q c2 hc2 hw2 v' e'
    simp only [leaderExitState_recs] at hc2
    by_cases hqr : q = r
    · rw [if_pos hqr] at hc2
      simp only [Option.some.injEq] at hc2
      subst hc2
      subst hqr
      constructor
      · intro hmem
        rcases List.mem_append.mp hmem with h | h
        · have := (hH.wVal q c hc hw v' e').mp h
          simpa using this
        · simp at h
      · intro hve
        obtain ⟨hv, he⟩ := hve
        simp only [setSem_val] at hv
        simp only [setSem_err] at he
        exact List.mem_append.mpr
          (Or.inl ((hH.wVal q c hc hw v' e').mpr ⟨hv, he⟩))
    · rw [if_neg hqr] at hc2
      constructor
      · intro hmem
        rcases List.mem_append.mp hmem with h | h
        · exact (hH.wVal q c2 hc2 hw2 v' e').mp h
        · simp at h
      · intro hve
        exact List.mem_append.mpr (Or.inl ((hH.wVal q c2 hc2 hw2 v' e').mpr hve))
  · intro q c2 hc2 hw2
    simp only [leaderExitState_recs] at hc2
    by_cases hqr : q = r
    · rw [if_pos hqr] at hc2
      simp only [Option.some.injEq] at hc2
      subst hc2
      subst hqr
      obtain ⟨i0, fc0, t0, hti0, hinv, hfn0⟩ := hH.wFn q c hc hw
      by_cases hi0 : i0 = i
      · subst hi0
        rw [ht] at hti0
        simp only [Option.some.injEq] at hti0
        subst hti0
        refine ⟨i0, fc0, setPhase t (.returned c.val c.err), ?_, ?_, ?_⟩
        · simp [leaderExitState_threads]
        · simp only [setPhase_key]
          exact List.mem_append.mpr (Or.inl hinv)
        · simpa using hfn0
      · refine ⟨i0, fc0, t0, ?_, List.mem_append.mpr (Or.inl hinv), ?_⟩
        · simp only [leaderExitState_threads]
          rw [if_neg hi0]
          exact hti0
        · simpa using hfn0
    · rw [if_neg hqr] at hc2
      obtain ⟨i0, fc0, t0, hti0, hinv, hfn0⟩ := hH.wFn q c2 hc2 hw2
      by_cases hi0 : i0 = i
      · subst hi0
        rw [ht] at hti0
        simp only [Option.some.injEq] at hti0
        subst hti0
        refine ⟨i0, fc0, setPhase t (.returned c.val c.err), ?_, ?_, ?_⟩
        · simp [leaderExitState_threads]
        · simp only [setPhase_key]
          exact List.mem_append.mpr (Or.inl hinv)
        · simpa using hfn0
      · refine ⟨i0, fc0, t0, ?_, List.mem_append.mpr (Or.inl hinv), hfn0⟩
        simp only [leaderExitState_threads]
        rw [if_neg hi0]
        exact hti0
  · intro q c2 hc2 hcur2
    simp only [leaderExitState_recs] at hc2
    by_cases hqr : q = r
    · rw [if_pos hqr] at hc2
      simp only [Option.some.injEq] at hc2
      subst hc2
      exact absurd hcur1 hcur2
    · rw [if_neg hqr] at hc2
      obtain ⟨h1, h2, h3⟩ := hH.closedNo q c2 hc2 hcur2
      refine ⟨?_, ?_, ?_⟩
      · intro hmem
        rcases List.mem_append.mp hmem with h | h
        · exact h1 h
        · simp only [List.mem_cons, List.not_mem_nil, or_false] at h
          rcases h with h | h | h
          · simp only [Ev.openGate.injEq] at h
            exact hqr h
          · simp at h
          · simp at h
      · intro k hmem
        rcases List.mem_append.mp hmem with h | h
        · exact h2 k h
        · simp only [List.mem_cons, List.not_mem_nil, or_false] at h
          rcases h with h | h | h
          · simp at h
          · simp only [Ev.del.injEq] at h
            exact hqr h.2
          · simp at h
      · intro j v' e' hmem
        rcases List.mem_append.mp hmem with h | h
        · exact h3 j v' e' h
        · simp only [List.mem_cons, List.not_mem_nil, or_false] at h
          rcases h with h | h | h
          · simp at h
          · simp at h
          · simp only [Ev.retShared.injEq] at h
            exact hqr h.2.1
  · intro q c2 hc2
    simp only [leaderExitState_recs] at hc2
    rw [List.countP_append]
    by_cases hqr : q = r
    · subst hqr
      rw [if_pos rfl] at hc2
      simp only [Option.some.injEq] at hc2
      subst hc2
      have hone : List.countP (isOpenGateOf q)
          ([Ev.openGate q, Ev.del t.key q, Ev.retShared i q c.val c.err] :
            List (Ev K V E)) = 1 := by
        simp [List.countP_cons, isOpenGateOf]
      rw [hone, hcnt, hcur1]
      simp
    · rw [if_neg hqr] at hc2
      have hz : List.countP (isOpenGateOf q)
          ([Ev.openGate r, Ev.del t.key r, Ev.retShared i r c.val c.err] :
            List (Ev K V E)) = 0 := by
        rw [List.countP_eq_zero]
        intro a ha hpa
        rw [isOpenGateOf_eq_true] at hpa
        subst hpa
        simp only [List.mem_cons, List.not_mem_nil, or_false] at ha
        rcases ha with h | h | h
        · simp only [Ev.openGate.injEq] at h
          exact hqr h
        · simp at h
        · simp at h
      rw [hz, hH.openCount q c2 hc2]
      omega
  · intro j q v' e' hmem
    rcases List.mem_append.mp hmem with h | h
    · by_cases hqr : q = r
      · subst hqr
        exact absurd h (hno3 j v' e')
      · obtain ⟨c2, hc2, hv, he, hw2⟩ := hH.shared j q v' e' h
        refine ⟨c2, ?_, hv, he, hw2⟩
        simp only [leaderExitState_recs]
        rw [if_neg hqr]
        exact hc2
    · simp only [List.mem_cons, List.not_mem_nil, or_false] at h
      rcases h with h | h | h
      · simp at h
      · simp at h
      · simp only [Ev.retShared.injEq] at h
        obtain ⟨h1, h2, h3, h4⟩ := h
        subst h2
        refine ⟨setSem c (c.sem.release writerWeight), ?_, ?_, ?_, ?_⟩
        · simp
        · simpa using h3
        · simpa using h4
        · simpa using hw
  · intro i1 t1 q fc1 ht1 hp1
    simp only [leaderExitState_threads] at ht1
    by_cases hi1 : i1 = i
    · rw [if_pos hi1] at ht1
      simp only [Option.some.injEq] at ht1
      subst ht1
      simp at hp1
    · rw [if_neg hi1] at ht1
      exact List.mem_append.mpr (Or.inl (hH.runInvoked i1 t1 q fc1 ht1 hp1))
  · intro q
    refine precedes_append (hH.ordWO q) ?_
    intro m hm
    rcases isAt_triple hm with ⟨hm0, hq0⟩ | ⟨hm1, hq1⟩ | ⟨hm2, hq2⟩
    · rw [isOpenGateOf_eq_true] at hq0
      simp only [Ev.openGate.injEq] at hq0
      subst hq0
      left
      exact ⟨Ev.write r c.val c.err, hwmem, by simp⟩
    · rw [isOpenGateOf_eq_true] at hq1
      simp at hq1
    · rw [isOpenGateOf_eq_true] at hq2
      simp at hq2
  · intro q
    refine precedes_append (hH.ordOD q) ?_
    intro m hm
    rcases isAt_triple hm with ⟨hm0, hq0⟩ | ⟨hm1, hq1⟩ | ⟨hm2, hq2⟩
    · rw [isDelOf_eq_true] at hq0
      obtain ⟨k, hk⟩ := hq0
      simp at hk
    · rw [isDelOf_eq_true] at hq1
      obtain ⟨k, hk⟩ := hq1
      simp only [Ev.del.injEq] at hk
      subst hm1
      right
      refine ⟨0, by omega, Ev.openGate r, by simp, ?_⟩
      rw [isOpenGateOf_eq_true]
      rw [hk.2]
    · rw [isDelOf_eq_true] at hq2
      obtain ⟨k, hk⟩ := hq2
      simp at hk

theorem hist_ctxCancel [DecidableEq K] [Inhabited V] {s : SysState K V E}
    {tr : List (Ev K V E)} {i : Nat} {t : Thread K V E} {e : E}
    (hH : Hist tr s) (ht : s.threads i = some t) :
    Hist (tr ++ [.cancel i]) (setThread s i (cancelCtx t e)) := by
  refine hist_setThread hH ht (by simp) (by simp) ?_ ?_
  · intro q fc h
    simpa using h
  · intro ev hev r
    simp only [List.mem_singleton] at hev
    subst hev
    simp [TouchesRec]

theorem hist_step [DecidableEq K] [Inhabited V] {s s' : SysState K V E}
    {tr evs : List (Ev K V E)} (hI : Inv s) (hH : Hist tr s)
    (hS : Step s evs s') : Hist (tr ++ evs) s' := by
  cases hS with
  | leaderEnter i t sem ht hp hk ha => exact hist_leaderEnter hI hH ht ha
  | followerEnter i t r ht hp hk => exact hist_followerEnter hH ht
  | followerAcquire i t r c sem ht hp hc ha =>
      exact hist_followerAcquire hI hH ht hc ha
  | followerCanceled i t r e ht hp hd => exact hist_followerCanceled hH ht
  | fnReturns i t r fc c v e ht hp hc hf => exact hist_fnReturns hI hH ht hp hc hf
  | fnPanics i t r fc ht hp hf => exact hist_fnPanics hH ht
  | leaderExit i t r c ht hp hc => exact hist_leaderExit hI hH ht hp hc
  | ctxCancel i t e ht hd => exact hist_ctxCancel hH ht

/-- inv_hist_steps: every run of the system from an initial state satisfies
the state invariant and the trace-history invariant. -/
theorem inv_hist_steps [DecidableEq K] [Inhabited V]
    {ts : Nat → Option (Thread K V E)} {tr : List (Ev K V E)} {s : SysState K V E}
    (hready : ∀ i t, ts i = some t → t.phase = .ready)
    (hS : Steps (mkInit ts) tr s) : Inv s ∧ Hist tr s := by
  induction hS with
  | refl => exact ⟨inv_mkInit hready, hist_mkInit hready⟩
  | tail h1 h2 ih => exact ⟨inv_step ih.1 h2, hist_step ih.1 ih.2 h2⟩

theorem release_reader_id {c : call V E} {sem : Weighted}
    (ha : tryAcquire c.sem readerWeight = some sem) :
    setSem c (sem.release readerWeight) = c := by
  obtain ⟨hle, hsem⟩ := tryAcquire_some ha
  subst hsem
  cases c with
  | mk csem cval cerr cw =>
    cases csem with
    | mk sz cu => simp [setSem, Weighted.release]

theorem tryAcquire_writer :
    tryAcquire (newWeighted writerWeight) writerWeight =
      some ⟨(writerWeight : Int), (writerWeight : Int)⟩ := by
  unfold tryAcquire newWeighted
  simp

/-- C2: pass-through unmodified: in any run of the system, every `Call`
that returns by sharing record `r`'s result — the leader at line 75 or a
follower at line 48, both `retShared` events — returns exactly the pair
stored by the unique result-slot write of that record: the same value and
the same error for every recipient, and that pair is exactly the
`FnOutcome.ok v e` the work function returned under `r`'s unique
invocation — not wrapped, not copied. -/
theorem claimC2 [DecidableEq K] [Inhabited V]
    {ts : Nat → Option (Thread K V E)} {tr : List (Ev K V E)} {s : SysState K V E}
    (hready : ∀ i t, ts i = some t → t.phase = .ready)
    (hS : Steps (mkInit ts) tr s)
    {j r : Nat} {v : V} {e : Option E}
    (hmem : Ev.retShared j r v e ∈ tr) :
    Ev.write r v e ∈ tr ∧
    (∀ v' e', Ev.write r v' e' ∈ tr → v' = v ∧ e' = e) ∧
    (∀ j' v' e', Ev.retShared j' r v' e' ∈ tr → v' = v ∧ e' = e) ∧
    (∃ i fc t, s.threads i = some t ∧ Ev.invoke i t.key r fc ∈ tr ∧
      t.fn fc = FnOutcome.ok v e) := by
  obtain ⟨hI, hH⟩ := inv_hist_steps hready hS
  obtain ⟨c, hc, hv, he, hw⟩ := hH.shared j r v e hmem
  subst hv
  subst he
  refine ⟨?_, ?_, ?_, ?_⟩
  · exact (hH.wVal r c hc hw c.val c.err).mpr ⟨rfl, rfl⟩
  · intro v' e' hW
    exact (hH.wVal r c hc hw v' e').mp hW
  · intro j' v' e' hR
    obtain ⟨c2, hc2, hv2, he2, hw2⟩ := hH.shared j' r v' e' hR
    rw [hc] at hc2
    simp only [Option.some.injEq] at hc2
    subst hc2
    exact ⟨hv2, he2⟩
  · exact hH.wFn r c hc hw

/-- C3: a follower whose context is done (canceled or deadline exceeded)
before the gate opens returns immediately — the cancellation branch of
`sem.Acquire` is enabled regardless of the gate's state — with the zero
value of the result type and its own context's error, and the step leaves
every other thread, every record, the registry map and the allocation
counter untouched: it has no effect on the leader or on any other
follower. -/
theorem claimC3 [DecidableEq K] [Inhabited V]
    {s : SysState K V E} {i : Nat} {t : Thread K V E} {r : Nat} {e : E}
    (ht : s.threads i = some t) (hp : t.phase = .followerWait r)
    (hd : t.ctx.canceledWith = some e) :
    ∃ s', Step s [.retCanceled i default (some e)] s' ∧
      (∃ t', s'.threads i = some t' ∧ t'.phase = .returned default (some e) ∧
        t'.key = t.key ∧ t'.ctx = t.ctx) ∧
      (∀ j, j ≠ i → s'.threads j = s.threads j) ∧
      s'.recs = s.recs ∧ s'.calls = s.calls ∧ s'.nextRec = s.nextRec := by
  refine ⟨setThread s i (setPhase t (.returned default (some e))),
    Step.followerCanceled s i t r e ht hp hd,
    ⟨setPhase t (.returned default (some e)), by simp, rfl, rfl, rfl⟩,
    ?_, rfl, rfl, rfl⟩
  intro j hj
  simp only [setThread_threads]
  rw [if_neg hj]

/-- C4: round-trip of the key through the context: `KeyFromContext`
applied to `withValue ctx k` returns exactly `some k`, and whenever a step
of the system invokes the work function as leader (an `invoke` event), the
context handed to `fn` is the caller's context extended with its key, so
`KeyFromContext` on it returns exactly the key that was passed to `Call`. -/
theorem claimC4 {K V E : Type} [DecidableEq K] [Inhabited V] :
    (∀ (ctx : Ctx K E) (k : K), KeyFromContext (withValue ctx k) = some k) ∧
    (∀ (s s' : SysState K V E) (evs : List (Ev K V E)) (i : Nat) (k : K)
      (r : Nat) (fc : Ctx K E), Step s evs s' → Ev.invoke i k r fc ∈ evs →
      KeyFromContext fc = some k ∧
        ∃ t, s.threads i = some t ∧ k = t.key ∧ fc = withValue t.ctx t.key) := by
  constructor
  · intro ctx k
    rfl
  · intro s s' evs i k r fc hS hmem
    cases hS with
    | leaderEnter i0 t sem ht hp hk ha =>
        simp only [List.mem_singleton, Ev.invoke.injEq] at hmem
        obtain ⟨hi, hkk, hr, hfc⟩ := hmem
        subst hkk
        subst hfc
        exact ⟨rfl, t, hi ▸ ht, rfl, rfl⟩
    | followerEnter i0 t r0 ht hp hk => simp at hmem
    | followerAcquire i0 t r0 c sem ht hp hc ha => simp at hmem
    | followerCanceled i0 t r0 e ht hp hd => simp at hmem
    | fnReturns i0 t r0 fc0 c v e ht hp hc hf => simp at hmem
    | fnPanics i0 t r0 fc0 ht hp hf => simp at hmem
    | leaderExit i0 t r0 c ht hp hc => simp at hmem
    | ctxCancel i0 t e ht hd => simp at hmem

/-- C5: the leader's run of `fn` is not subject to cancellation by the
primitive: stated with the leader's own context already done, (a) no
single step can move the leader anywhere except staying in `leaderRun` or
completing into `leaderFinish` — in particular no step diverts it into a
cancellation return — and (b) the leader can run to completion, after
which `Call` returns to it exactly the `(v, e)` that `fn` returned. -/
theorem claimC5 [DecidableEq K] [Inhabited V]
    {s : SysState K V E} {i : Nat} {t : Thread K V E} {r : Nat} {fc : Ctx K E}
    {c : call V E} {v : V} {e : Option E} {e0 : E}
    (ht : s.threads i = some t) (hp : t.phase = .leaderRun r fc)
    (hc : s.recs r = some c) (hf : t.fn fc = .ok v e)
    (hd : t.ctx.canceledWith = some e0) :
    (∃ s1 s2 evs1 evs2, Step s evs1 s1 ∧ Step s1 evs2 s2 ∧
      ∃ t2, s2.threads i = some t2 ∧ t2.phase = .returned v e) ∧
    (∀ evs s' t', Step s evs s' → s'.threads i = some t' →
      t'.phase = .leaderRun r fc ∨ t'.phase = .leaderFinish r) := by
  constructor
  · refine ⟨setRec (setThread s i (setPhase t (.leaderFinish r))) r
      (storeResult c v e), _, _, _,
      Step.fnReturns s i t r fc c v e ht hp hc hf,
      Step.leaderExit _ i (setPhase t (.leaderFinish r)) r (storeResult c v e)
        (by simp) (by simp) (by simp), ?_⟩
    refine ⟨setPhase (setPhase t (.leaderFinish r))
      (.returned (storeResult c v e).val (storeResult c v e).err), ?_, ?_⟩
    · simp [leaderExitState_threads]
    · simp
  · intro evs s' t' hS ht'
    cases hS with
    | leaderEnter i0 t0 sem ht0 hp0 hk0 ha0 =>
        simp only [leaderEnterState_threads] at ht'
        by_cases hii : i = i0
        · subst hii
          rw [ht] at ht0
          simp only [Option.some.injEq] at ht0
          subst ht0
          rw [hp] at hp0
          simp at hp0
        · rw [if_neg hii] at ht'
          rw [ht] at ht'
          simp only [Option.some.injEq] at ht'
          subst ht'
          exact Or.inl hp
    | followerEnter i0 t0 r0 ht0 hp0 hk0 =>
        simp only [setThread_threads] at ht'
        by_cases hii : i = i0
        · subst hii
          rw [ht] at ht0
          simp only [Option.some.injEq] at ht0
          subst ht0
          rw [hp] at hp0
          simp at hp0
        · rw [if_neg hii] at ht'
          rw [ht] at ht'
          simp only [Option.some.injEq] at ht'
          subst ht'
          exact Or.inl hp
    | followerAcquire i0 t0 r0 c0 sem0 ht0 hp0 hc0 ha0 =>
        simp only [setRec_threads, setThread_threads] at ht'
        by_cases hii : i = i0
        · subst hii
          rw [ht] at ht0
          simp only [Option.some.injEq] at ht0
          subst ht0
          rw [hp] at hp0
          simp at hp0
        · rw [if_neg hii] at ht'
          rw [ht] at ht'
          simp only [Option.some.injEq] at ht'
          subst ht'
          exact Or.inl hp
    | followerCanceled i0 t0 r0 e1 ht0 hp0 hd0 =>
        simp only [setThread_threads] at ht'
        by_cases hii : i = i0
        · subst hii
          rw [ht] at ht0
          simp only [Option.some.injEq] at ht0
          subst ht0
          rw [hp] at hp0
          simp at hp0
        · rw [if_neg hii] at ht'
          rw [ht] at ht'
          simp only [Option.some.injEq] at ht'
          subst ht'
          exact Or.inl hp
    | fnReturns i0 t0 r0 fc0 c0 v0 e1 ht0 hp0 hc0 hf0 =>
        simp only [setRec_threads, setThread_threads] at ht'
        by_cases hii : i = i0
        · subst hii
          rw [ht] at ht0
          simp only [Option.some.injEq] at ht0
          subst ht0
          rw [hp] at hp0
          simp only [Phase.leaderRun.injEq] at hp0
          obtain ⟨hr0, hfc0⟩ := hp0
          subst hr0
          rw [if_pos rfl] at ht'
          simp only [Option.some.injEq] at ht'
          subst ht'
          exact Or.inr (by simp)
        · rw [if_neg hii] at ht'
          rw [ht] at ht'
          simp only [Option.some.injEq] at ht'
          subst ht'
          exact Or.inl hp
    | fnPanics i0 t0 r0 fc0 ht0 hp0 hf0 =>
        simp only [setThread_threads] at ht'
        by_cases hii : i = i0
        · subst hii
          rw [ht] at ht0
          simp only [Option.some.injEq] at ht0
          subst ht0
          rw [hp] at hp0
          simp only [Phase.leaderRun.injEq] at hp0
          obtain ⟨hr0, hfc0⟩ := hp0
          subst hfc0
          rw [hf] at hf0
          exact absurd hf0 (by simp)
        · rw [if_neg hii] at ht'
          rw [ht] at ht'
          simp only [Option.some.injEq] at ht'
          subst ht'
          exact Or.inl hp
    | leaderExit i0 t0 r0 c0 ht0 hp0 hc0 =>
        simp only [leaderExitState_threads] at ht'
        by_cases hii : i = i0
        · subst hii
          rw [ht] at ht0
          simp only [Option.some.injEq] at ht0
          subst ht0
          rw [hp] at hp0
          simp at hp0
        · rw [if_neg hii] at ht'
          rw [ht] at ht'
          simp only [Option.some.injEq] at ht'
          subst ht'
          exact Or.inl hp
    | ctxCancel i0 t0 e1 ht0 hd0 =>
        simp only [setThread_threads] at ht'
        by_cases hii : i = i0
        · subst hii
          rw [ht] at ht0
          simp only [Option.some.injEq] at ht0
          subst ht0
          rw [if_pos rfl] at ht'
          simp only [Option.some.injEq] at ht'
          subst ht'
          simp only [cancelCtx_phase]
          exact Or.inl hp
        · rw [if_neg hii] at ht'
          rw [ht] at ht'
          simp only [Option.some.injEq] at ht'
          subst ht'
          exact Or.inl hp

/-- C6: `KeyFromContext` on a context that carries no key — one not
derived from an executor invocation of `Call`, such as the background
context — fails fatally: the type assertion over the nil lookup panics,
modelled by `none`, and no key value is ever returned. -/
theorem claimC6 (K E : Type) :
    (∀ ctx : Ctx K E, ctx.sfKey = none →
      KeyFromContext ctx = none ∧ ∀ k : K, KeyFromContext ctx ≠ some k) ∧
    KeyFromContext (background K E) = none := by
  constructor
  · intro ctx h
    refine ⟨h, ?_⟩
    intro k hk
    unfold KeyFromContext at hk
    rw [h] at hk
    exact Option.noConfusion hk
  · rfl

/-- C7: completion order of the leader: in any run of the system, for
every record, the release of the full writer weight (gate-open, line 71)
is strictly preceded in the trace by the result-slot write of that record
(line 66), and the deletion of the key from the registry (line 72) is
strictly preceded by the gate-open — so the gate-open never precedes the
result write and the map removal never precedes the gate-open. -/
theorem claimC7 [DecidableEq K] [Inhabited V]
    {ts : Nat → Option (Thread K V E)} {tr : List (Ev K V E)} {s : SysState K V E}
    (hready : ∀ i t, ts i = some t → t.phase = .ready)
    (hS : Steps (mkInit ts) tr s) (r : Nat) :
    Precedes (isWriteOf r) (isOpenGateOf r) tr ∧
    Precedes (isOpenGateOf r) (isDelOf r) tr := by
  obtain ⟨hI, hH⟩ := inv_hist_steps hready hS
  exact ⟨hH.ordWO r, hH.ordOD r⟩

/-- C8: registry uniqueness and freshness: in any state satisfying the
invariant, at most one execution is in flight per key (two owners under
the same key are the same thread owning the same record); a key absent
from the registry map has no execution in flight for it; and a `Call`
that becomes leader (emitting `invoke`) starts a wholly new, independent
execution: its key was absent, its record id is fresh (never allocated),
and the record starts closed, unwritten and zero-valued, carrying no
result from any earlier execution. -/
theorem claimC8 [DecidableEq K] [Inhabited V] {s : SysState K V E}
    (hI : Inv s) :
    (∀ i j ti tj k r r', s.threads i = some ti → s.threads j = some tj →
      ti.key = k → tj.key = k → OwnsRec ti.phase r → OwnsRec tj.phase r' →
      i = j ∧ r = r') ∧
    (∀ k, s.calls k = none →
      ∀ i t r, s.threads i = some t → t.key = k → ¬ OwnsRec t.phase r) ∧
    (∀ evs s' i k r fc, Step s evs s' → Ev.invoke i k r fc ∈ evs →
      s.calls k = none ∧ s.recs r = none ∧ r = s.nextRec ∧
      s'.recs r = some ⟨⟨(writerWeight : Int), (writerWeight : Int)⟩,
        default, none, false⟩) := by
  refine ⟨?_, ?_, ?_⟩
  · intro i j ti tj k r r' hi hj hki hkj hoi hoj
    obtain ⟨hri, hci⟩ := hI.ownerCalls i ti r hi hoi
    obtain ⟨hrj, hcj⟩ := hI.ownerCalls j tj r' hj hoj
    rw [hki] at hci
    rw [hkj] at hcj
    rw [hci] at hcj
    simp only [Option.some.injEq] at hcj
    subst hcj
    exact ⟨hI.ownerUniq i j ti tj r hi hj hoi hoj, rfl⟩
  · intro k hk i t r hi hkey ho
    obtain ⟨hlt, hcall⟩ := hI.ownerCalls i t r hi ho
    rw [hkey, hk] at hcall
    exact Option.noConfusion hcall
  · intro evs s' i k r fc hS hmem
    cases hS with
    | leaderEnter i0 t sem ht hp hk ha =>
        simp only [List.mem_singleton, Ev.invoke.injEq] at hmem
        obtain ⟨hi, hkk, hr, hfc⟩ := hmem
        subst hkk
        subst hr
        obtain ⟨hle, hsem⟩ := tryAcquire_some ha
        have hsem2 : sem = ⟨(writerWeight : Int), (writerWeight : Int)⟩ := by
          rw [hsem]
          simp [newWeighted]
        subst hsem2
        refine ⟨hk, hI.fresh s.nextRec (le_refl _), rfl, ?_⟩
        simp [leaderEnterState_recs]
    | followerEnter i0 t r0 ht hp hk => simp at hmem
    | followerAcquire i0 t r0 c sem ht hp hc ha => simp at hmem
    | followerCanceled i0 t r0 e ht hp hd => simp at hmem
    | fnReturns i0 t r0 fc0 c v e ht hp hc hf => simp at hmem
    | fnPanics i0 t r0 fc0 ht hp hf => simp at hmem
    | leaderExit i0 t r0 c ht hp hc => simp at hmem
    | ctxCancel i0 t e ht hd => simp at hmem

/-- C9: the gate's magic weights: the reader unit is 1 and the writer unit
is 2^30 (strictly larger); a record's semaphore is created with total
capacity equal to the writer weight; the leader's acquisition of the full
writer weight on the fresh semaphore is guaranteed to succeed immediately,
leaving it fully held; and in any run of the system each record's full
writer weight is released at most once (at most one gate-open event per
record in the whole trace). -/
theorem claimC9 {K V E : Type} [DecidableEq K] [Inhabited V] :
    readerWeight = 1 ∧ writerWeight = 2 ^ 30 ∧ readerWeight < writerWeight ∧
    (newWeighted writerWeight).size = (writerWeight : Int) ∧
    tryAcquire (newWeighted writerWeight) writerWeight =
      some ⟨(writerWeight : Int), (writerWeight : Int)⟩ ∧
    (∀ (ts : Nat → Option (Thread K V E)) (tr : List (Ev K V E))
      (s : SysState K V E), (∀ i t, ts i = some t → t.phase = .ready) →
      Steps (mkInit ts) tr s →
      ∀ r, List.countP (isOpenGateOf r) tr ≤ 1) := by
  refine ⟨readerWeight_eq, writerWeight_eq, readerWeight_lt_writerWeight,
    rfl, tryAcquire_writer, ?_⟩
  intro ts tr s hready hS r
  obtain ⟨hI, hH⟩ := inv_hist_steps hready hS
  cases hrec : s.recs r with
  | none =>
      have hz : List.countP (isOpenGateOf r) tr = 0 := by
        rw [List.countP_eq_zero]
        intro a ha hpa
        rw [isOpenGateOf_eq_true] at hpa
        subst hpa
        exact hH.noGhost r hrec _ ha (by simp [TouchesRec])
      omega
  | some c =>
      have := hH.openCount r c hrec
      rw [this]
      split <;> omega

/-- SoloEpisode describes a system in the middle of one shared execution:
thread `li` is its leader (running `fn`, about to exit, or returned),
record `r` is its record with the matching gate/slot state, every thread
in `fids` is a follower of `r` with a live context (waiting or already
returned with the shared pair), and no other thread exists. -/
def SoloEpisode [Inhabited V] (li : Nat) (fids : List Nat) (r : Nat)
    (fnCtx : Ctx K E) (v : V) (e : Option E) (s : SysState K V E) : Prop :=
  (∃ t c, s.threads li = some t ∧ s.recs r = some c ∧
    t.fn fnCtx = FnOutcome.ok v e ∧ c.sem.size = (writerWeight : Int) ∧
    ((t.phase = .leaderRun r fnCtx ∧ c.sem.cur = (writerWeight : Int) ∧
        c.written = false) ∨
      (t.phase = .leaderFinish r ∧ c.sem.cur = (writerWeight : Int) ∧
        c.written = true ∧ c.val = v ∧ c.err = e) ∨
      (t.phase = .returned v e ∧ c.sem.cur = 0 ∧ c.val = v ∧ c.err = e))) ∧
  (∀ j, j ∈ fids → ∃ t', s.threads j = some t' ∧
    t'.ctx.canceledWith = none ∧
    (t'.phase = .followerWait r ∨ t'.phase = .returned v e)) ∧
  (∀ i, i ≠ li → i ∉ fids → s.threads i = none)

theorem soloEpisode_step [DecidableEq K] [Inhabited V]
    {li : Nat} {fids : List Nat} {r : Nat} {fnCtx : Ctx K E} {v : V}
    {e : Option E} {s2 s3 : SysState K V E} {evs : List (Ev K V E)}
    (hli : li ∉ fids)
    (hP : SoloEpisode li fids r fnCtx v e s2) (hS : Step s2 evs s3)
    (hNC : ∀ i, Ev.cancel i ∉ evs) :
    SoloEpisode li fids r fnCtx v e s3 ∧
      ∀ i k q fc, Ev.invoke i k q fc ∉ evs := by
  obtain ⟨⟨t, c, hL, hc, hfn, hsize, hph3⟩, hF, hOnly⟩ := hP
  cases hS with
  | leaderEnter i0 t0 sem ht0 hp0 hk0 ha0 =>
      exfalso
      by_cases h1 : i0 = li
      · subst h1
        rw [hL] at ht0
        simp only [Option.some.injEq] at ht0
        subst ht0
        rcases hph3 with ⟨h, _⟩ | ⟨h, _⟩ | ⟨h, _⟩ <;> rw [hp0] at h <;> simp at h
      · by_cases h2 : i0 ∈ fids
        · obtain ⟨t', ht', hcw, hph⟩ := hF i0 h2
          rw [ht0] at ht'
          simp only [Option.some.injEq] at ht'
          subst ht'
          rcases hph with h | h <;> rw [hp0] at h <;> simp at h
        · rw [hOnly i0 h1 h2] at ht0
          exact Option.noConfusion ht0
  | followerEnter i0 t0 r0 ht0 hp0 hk0 =>
      exfalso
      by_cases h1 : i0 = li
      · subst h1
        rw [hL] at ht0
        simp only [Option.some.injEq] at ht0
        subst ht0
        rcases hph3 with ⟨h, _⟩ | ⟨h, _⟩ | ⟨h, _⟩ <;> rw [hp0] at h <;> simp at h
      · by_cases h2 : i0 ∈ fids
        · obtain ⟨t', ht', hcw, hph⟩ := hF i0 h2
          rw [ht0] at ht'
          simp only [Option.some.injEq] at ht'
          subst ht'
          rcases hph with h | h <;> rw [hp0] at h <;> simp at h
        · rw [hOnly i0 h1 h2] at ht0
          exact Option.noConfusion ht0
  | followerAcquire i0 t0 r0 c0 sem0 ht0 hp0 hc0 ha0 =>
      by_cases h1 : i0 = li
      · exfalso
        subst h1
        rw [hL] at ht0
        simp only [Option.some.injEq] at ht0
        subst ht0
        rcases hph3 with ⟨h, _⟩ | ⟨h, _⟩ | ⟨h, _⟩ <;> rw [hp0] at h <;> simp at h
      · by_cases h2 : i0 ∈ fids
        · obtain ⟨t', ht', hcw, hph⟩ := hF i0 h2
          rw [ht0] at ht'
          simp only [Option.some.injEq] at ht'
          subst ht'
          rcases hph with h | h
          · rw [hp0] at h
            simp only [Phase.followerWait.injEq] at h
            subst h
            rw [hc] at hc0
            simp only [Option.some.injEq] at hc0
            subst hc0
            obtain ⟨hle, hsem⟩ := tryAcquire_some ha0
            rw [hsize, readerWeight_eq] at hle
            rcases hph3 with ⟨hph, hcur, hwr⟩ | ⟨hph, hcur, hwr, hv, he⟩ |
                ⟨hph, hcur, hv, he⟩
            · exfalso
              rw [hcur] at hle
              omega
            · exfalso
              rw [hcur] at hle
              omega
            · constructor
              · refine ⟨⟨t, c, ?_, ?_, hfn, hsize, ?_⟩, ?_, ?_⟩
                · rw [release_reader_id ha0,
                    setRec_self (by simp only [setThread_recs]; exact hc)]
                  simp only [setThread_threads]
                  rw [if_neg (fun hh => h1 hh.symm)]
                  exact hL
                · rw [release_reader_id ha0,
                    setRec_self (by simp only [setThread_recs]; exact hc)]
                  simp only [setThread_recs]
                  exact hc
                · exact Or.inr (Or.inr ⟨hph, hcur, hv, he⟩)
                · intro j hj
                  rw [release_reader_id ha0,
                    setRec_self (by simp only [setThread_recs]; exact hc)]
                  simp only [setThread_threads]
                  by_cases hji : j = i0
                  · subst hji
                    rw [if_pos rfl]
                    refine ⟨setPhase t0 (.returned c.val c.err), rfl, hcw, ?_⟩
                    right
                    simp only [setPhase_phase]
                    rw [hv, he]
                  · rw [if_neg hji]
                    exact hF j hj
                · intro i hi1 hi2
                  rw [release_reader_id ha0,
                    setRec_self (by simp only [setThread_recs]; exact hc)]
                  simp only [setThread_threads]
                  rw [if_neg (by intro hh; rw [hh] at hi2; exact hi2 h2)]
                  exact hOnly i hi1 hi2
              · intro i k q fc hmem
                simp at hmem
          · exfalso
            rw [hp0] at h
            simp at h
        · exfalso
          rw [hOnly i0 h1 h2] at ht0
          exact Option.noConfusion ht0
  | followerCanceled i0 t0 r0 e1 ht0 hp0 hd0 =>
      exfalso
      by_cases h1 : i0 = li
      · subst h1
        rw [hL] at ht0
        simp only [Option.some.injEq] at ht0
        subst ht0
        rcases hph3 with ⟨h, _⟩ | ⟨h, _⟩ | ⟨h, _⟩ <;> rw [hp0] at h <;> simp at h
      · by_cases h2 : i0 ∈ fids
        · obtain ⟨t', ht', hcw, hph⟩ := hF i0 h2
          rw [ht0] at ht'
          simp only [Option.some.injEq] at ht'
          subst ht'
          rw [hcw] at hd0
          exact Option.noConfusion hd0
        · rw [hOnly i0 h1 h2] at ht0
          exact Option.noConfusion ht0
  | fnReturns i0 t0 r0 fc0 c0 v0 e1 ht0 hp0 hc0 hf0 =>
      by_cases h1 : i0 = li
      · subst h1
        rw [hL] at ht0
        simp only [Option.some.injEq] at ht0
        subst ht0
        rcases hph3 with ⟨hph, hcur, hwr⟩ | ⟨hph, _, _, _, _⟩ | ⟨hph, _, _, _⟩
        · rw [hph] at hp0
          simp only [Phase.leaderRun.injEq] at hp0
          obtain ⟨hr0, hfc0⟩ := hp0
          subst hr0
          subst hfc0
          rw [hfn] at hf0
          simp only [FnOutcome.ok.injEq] at hf0
          obtain ⟨hv0, he0⟩ := hf0
          subst hv0
          subst he0
          rw [hc] at hc0
          simp only [Option.some.injEq] at hc0
          subst hc0
          constructor
          · refine ⟨⟨setPhase t (.leaderFinish r), storeResult c v e, ?_, ?_,
              by simpa using hfn, by simpa using hsize, ?_⟩, ?_, ?_⟩
            · simp
            · simp
            · refine Or.inr (Or.inl ⟨by simp, by simpa using hcur, by simp,
                by simp, by simp⟩)
            · intro j hj
              simp only [setRec_threads, setThread_threads]
              rw [if_neg (by intro hh; rw [hh] at hj; exact hli hj)]
              exact hF j hj
            · intro i hi1 hi2
              simp only [setRec_threads, setThread_threads]
              rw [if_neg hi1]
              exact hOnly i hi1 hi2
          · intro i k q fc hmem
            simp at hmem
        · exfalso
          rw [hph] at hp0
          simp at hp0
        · exfalso
          rw [hph] at hp0
          simp at hp0
      · exfalso
        by_cases h2 : i0 ∈ fids
        · obtain ⟨t', ht', hcw, hph⟩ := hF i0 h2
          rw [ht0] at ht'
          simp only [Option.some.injEq] at ht'
          subst ht'
          rcases hph with h | h <;> rw [hp0] at h <;> simp at h
        · rw [hOnly i0 h1 h2] at ht0
          exact Option.noConfusion ht0
  | fnPanics i0 t0 r0 fc0 ht0 hp0 hf0 =>
      exfalso
      by_cases h1 : i0 = li
      · subst h1
        rw [hL] at ht0
        simp only [Option.some.injEq] at ht0
        subst ht0
        rcases hph3 with ⟨hph, _, _⟩ | ⟨hph, _⟩ | ⟨hph, _⟩
        · rw [hph] at hp0
          simp only [Phase.leaderRun.injEq] at hp0
          obtain ⟨hr0, hfc0⟩ := hp0
          subst hfc0
          rw [hfn] at hf0
          exact absurd hf0 (by simp)
        · rw [hph] at hp0
          simp at hp0
        · rw [hph] at hp0
          simp at hp0
      · by_cases h2 : i0 ∈ fids
        · obtain ⟨t', ht', hcw, hph⟩ := hF i0 h2
          rw [ht0] at ht'
          simp only [Option.some.injEq] at ht'
          subst ht'
          rcases hph with h | h <;> rw [hp0] at h <;> simp at h
        · rw [hOnly i0 h1 h2] at ht0
          exact Option.noConfusion ht0
  | leaderExit i0 t0 r0 c0 ht0 hp0 hc0 =>
      by_cases h1 : i0 = li
      · subst h1
        rw [hL] at ht0
        simp only [Option.some.injEq] at ht0
        subst ht0
        rcases hph3 with ⟨hph, _, _⟩ | ⟨hph, hcur, hwr, hv, he⟩ | ⟨hph, _⟩
        · exfalso
          rw [hph] at hp0
          simp at hp0
        · rw [hph] at hp0
          simp only [Phase.leaderFinish.injEq] at hp0
          subst hp0
          rw [hc] at hc0
          simp only [Option.some.injEq] at hc0
          subst hc0
          constructor
          · refine ⟨⟨setPhase t (.returned c.val c.err),
              setSem c (c.sem.release writerWeight), ?_, ?_,
              by simpa using hfn, by simpa using hsize, ?_⟩, ?_, ?_⟩
            · simp [leaderExitState_threads]
            · simp [leaderExitState_recs]
            · refine Or.inr (Or.inr ⟨?_, ?_, ?_, ?_⟩)
              · simp only [setPhase_phase]
                rw [hv, he]
              · simp only [setSem_sem, release_cur]
                rw [hcur]
                exact sub_self _
              · simpa using hv
              · simpa using he
            · intro j hj
              simp only [leaderExitState_threads]
              rw [if_neg (by intro hh; rw [hh] at hj; exact hli hj)]
              exact hF j hj
            · intro i hi1 hi2
              simp only [leaderExitState_threads]
              rw [if_neg hi1]
              exact hOnly i hi1 hi2
          · intro i k q fc hmem
            simp at hmem
        · exfalso
          rw [hph] at hp0
          simp at hp0
      · exfalso
        by_cases h2 : i0 ∈ fids
        · obtain ⟨t', ht', hcw, hph⟩ := hF i0 h2
          rw [ht0] at ht'
          simp only [Option.some.injEq] at ht'
          subst ht'
          rcases hph with h | h <;> rw [hp0] at h <;> simp at h
        · rw [hOnly i0 h1 h2] at ht0
          exact Option.noConfusion ht0
  | ctxCancel i0 t0 e1 ht0 hd0 =>
      exact absurd (by simp) (hNC i0)

theorem soloEpisode_steps [DecidableEq K] [Inhabited V]
    {li : Nat} {fids : List Nat} {r : Nat} {fnCtx : Ctx K E} {v : V}
    {e : Option E} {s s' : SysState K V E} {tr : List (Ev K V E)}
    (hli : li ∉ fids) (hS : Steps s tr s') :
    (∀ i, Ev.cancel i ∉ tr) → SoloEpisode li fids r fnCtx v e s →
    SoloEpisode li fids r fnCtx v e s' ∧
      ∀ i k q fc, Ev.invoke i k q fc ∉ tr := by
  induction hS with
  | refl =>
      intro hNC hP
      exact ⟨hP, by simp⟩
  | tail h1 h2 ih =>
      intro hNC hP
      obtain ⟨hP2, hNoInv1⟩ :=
        ih (fun i h => hNC i (List.mem_append.mpr (Or.inl h))) hP
      obtain ⟨hP3, hNoInv2⟩ := soloEpisode_step hli hP2 h2
        (fun i h => hNC i (List.mem_append.mpr (Or.inr h)))
      refine ⟨hP3, ?_⟩
      intro i k q fc hmem
      rcases List.mem_append.mp hmem with h | h
      · exact hNoInv1 i k q fc h
      · exact hNoInv2 i k q fc h

/-- C1, amended: shared execution, exactly once: consider the system of
exactly the N callers of one key — the leader `li` running `fn` on record
`r` plus the followers `fids` attached to `r`, no context done. In any
continuation in which no caller's context is ever canceled and all N
callers return, the work function is never invoked again (no further
`invoke` event: together with the leader's one invocation already in
progress, `fn` runs exactly once), and all N callers return the identical
pair `(v, e)` — exactly what `fn` returns. The cancellation exclusion must
cover the whole episode, not merely the time until `fn` completes: a
follower whose context ends after the result is written but before its own
acquire returns the zero value with its context's error instead of the
shared pair — `Step.followerCanceled` is enabled from `followerWait`
whatever the record's state, exactly as `sem.Acquire` prefers `ctx.Err()`
even when the gate is already open (the counterexample below exhibits such
a run). -/
theorem claimC1 [DecidableEq K] [Inhabited V]
    {li : Nat} {fids : List Nat} {r : Nat} {fnCtx : Ctx K E} {v : V}
    {e : Option E} {s s' : SysState K V E} {tr : List (Ev K V E)}
    {lt : Thread K V E}
    (hli : li ∉ fids)
    (hL : s.threads li = some lt) (hLp : lt.phase = .leaderRun r fnCtx)
    (hLfn : lt.fn fnCtx = FnOutcome.ok v e)
    (hrec : ∃ c, s.recs r = some c ∧ c.sem.size = (writerWeight : Int) ∧
      c.sem.cur = (writerWeight : Int) ∧ c.written = false)
    (hF : ∀ j ∈ fids, ∃ ft, s.threads j = some ft ∧
      ft.phase = .followerWait r ∧ ft.ctx.canceledWith = none)
    (hOnly : ∀ i, i ≠ li → i ∉ fids → s.threads i = none)
    (hS : Steps s tr s')
    (hNC : ∀ i, Ev.cancel i ∉ tr)
    (hDone : ∀ j, j = li ∨ j ∈ fids →
      ∃ t' v' e', s'.threads j = some t' ∧ t'.phase = .returned v' e') :
    (∀ i k q fc, Ev.invoke i k q fc ∉ tr) ∧
    (∀ j, j = li ∨ j ∈ fids →
      ∃ t', s'.threads j = some t' ∧ t'.phase = .returned v e) := by
  obtain ⟨c, hc, hsize, hcur, hwr⟩ := hrec
  have hP : SoloEpisode li fids r fnCtx v e s := by
    refine ⟨⟨lt, c, hL, hc, hLfn, hsize, Or.inl ⟨hLp, hcur, hwr⟩⟩, ?_, hOnly⟩
    intro j hj
    obtain ⟨ft, h1, h2, h3⟩ := hF j hj
    exact ⟨ft, h1, h3, Or.inl h2⟩
  obtain ⟨⟨t, c2, hL2, hc2, hfn2, hsize2, hph3⟩, hF2, hOnly2⟩ :=
    (soloEpisode_steps hli hS hNC hP).1
  refine ⟨(soloEpisode_steps hli hS hNC hP).2, ?_⟩
  intro j hj
  rcases hj with hj | hj
  · subst hj
    obtain ⟨t', v', e', ht', hp'⟩ := hDone j (Or.inl rfl)
    rw [hL2] at ht'
    simp only [Option.some.injEq] at ht'
    subst ht'
    rcases hph3 with ⟨hph, _⟩ | ⟨hph, _⟩ | ⟨hph, _⟩
    · rw [hph] at hp'
      simp at hp'
    · rw [hph] at hp'
      simp at hp'
    · exact ⟨t, hL2, hph⟩
  · obtain ⟨t', ht', hcw, hph⟩ := hF2 j hj
    rcases hph with hph | hph
    · obtain ⟨t'', v', e', ht'', hp''⟩ := hDone j (Or.inr hj)
      rw [ht'] at ht''
      simp only [Option.some.injEq] at ht''
      subst ht''
      rw [hph] at hp''
      simp at hp''
    · exact ⟨t', ht', hph⟩

/-- PanicState describes a system in which thread `li`'s call of `fn`
under key `k` and record `r` panics (or has panicked): the invariant
holds, `li` is still the owner (running or panicked), the key is still
mapped to `r`, and `r`'s gate is still fully held and its slot unwritten. -/
def PanicState [Inhabited V] (li : Nat) (k : K) (r : Nat) (fnCtx : Ctx K E)
    (s : SysState K V E) : Prop :=
  Inv s ∧ ∃ t c, s.threads li = some t ∧ t.key = k ∧
    t.fn fnCtx = FnOutcome.panics ∧
    (t.phase = .leaderRun r fnCtx ∨ t.phase = .panicked r) ∧
    s.calls k = some r ∧ s.recs r = some c ∧
    c.sem.size = (writerWeight : Int) ∧ c.sem.cur = (writerWeight : Int) ∧
    c.written = false

theorem panicState_step [DecidableEq K] [Inhabited V]
    {li : Nat} {k : K} {r : Nat} {fnCtx : Ctx K E}
    {s2 s3 : SysState K V E} {evs : List (Ev K V E)}
    (hP : PanicState li k r fnCtx s2) (hS : Step s2 evs s3) :
    PanicState li k r fnCtx s3 ∧
      (∀ i q fc, Ev.invoke i k q fc ∉ evs) ∧
      Ev.openGate r ∉ evs ∧ (∀ k', Ev.del k' r ∉ evs) ∧
      (∀ j v' e', Ev.retShared j r v' e' ∉ evs) := by
  obtain ⟨hInv, t, c, hL, hkey, hfn, hph2, hcall, hc, hsize, hcur, hwr⟩ := hP
  have howns : OwnsRec t.phase r := by
    rcases hph2 with h | h
    · exact Or.inl ⟨fnCtx, h⟩
    · exact Or.inr (Or.inr h)
  have hInv3 : Inv s3 := inv_step hInv hS
  cases hS with
  | leaderEnter i0 t0 sem ht0 hp0 hk0 ha0 =>
      have hli0 : i0 ≠ li := by
        intro hh
        subst hh
        rw [hL] at ht0
        simp only [Option.some.injEq] at ht0
        subst ht0
        rcases hph2 with h | h <;> rw [hp0] at h <;> simp at h
      have hkne : t0.key ≠ k := by
        intro hh
        rw [hh, hcall] at hk0
        exact Option.noConfusion hk0
      have hrlt : r < s2.nextRec := (hInv.ownerCalls li t r hL howns).1
      refine ⟨⟨hInv3, t, c, ?_, hkey, hfn, hph2, ?_, ?_, hsize, hcur, hwr⟩,
        ?_, ?_, ?_, ?_⟩
      · simp only [leaderEnterState_threads]
        rw [if_neg (fun hh => hli0 hh.symm)]
        exact hL
      · simp only [leaderEnterState_calls]
        rw [if_neg (fun hh => hkne hh.symm)]
        exact hcall
      · simp only [leaderEnterState_recs]
        rw [if_neg (by omega)]
        exact hc
      · intro i q fc hmem
        simp only [List.mem_singleton, Ev.invoke.injEq] at hmem
        exact hkne hmem.2.1.symm
      · simp
      · intro k' hmem
        simp at hmem
      · intro j v' e' hmem
        simp at hmem
  | followerEnter i0 t0 r0 ht0 hp0 hk0 =>
      have hli0 : i0 ≠ li := by
        intro hh
        subst hh
        rw [hL] at ht0
        simp only [Option.some.injEq] at ht0
        subst ht0
        rcases hph2 with h | h <;> rw [hp0] at h <;> simp at h
      refine ⟨⟨hInv3, t, c, ?_, hkey, hfn, hph2, hcall, hc, hsize, hcur, hwr⟩,
        by simp, by simp, by simp, by simp⟩
      simp only [setThread_threads]
      rw [if_neg (fun hh => hli0 hh.symm)]
      exact hL
  | followerAcquire i0 t0 r0 c0 sem0 ht0 hp0 hc0 ha0 =>
      have hr0 : r0 ≠ r := by
        intro hh
        subst hh
        rw [hc] at hc0
        simp only [Option.some.injEq] at hc0
        subst hc0
        obtain ⟨hle, hsem⟩ := tryAcquire_some ha0
        rw [hsize, hcur, readerWeight_eq] at hle
        omega
      have hli0 : i0 ≠ li := by
        intro hh
        subst hh
        rw [hL] at ht0
        simp only [Option.some.injEq] at ht0
        subst ht0
        rcases hph2 with h | h <;> rw [hp0] at h <;> simp at h
      refine ⟨⟨hInv3, t, c, ?_, hkey, hfn, hph2, hcall, ?_, hsize, hcur, hwr⟩,
        by simp, by simp, by simp, ?_⟩
      · simp only [setRec_threads, setThread_threads]
        rw [if_neg (fun hh => hli0 hh.symm)]
        exact hL
      · simp only [setRec_recs, setThread_recs]
        rw [if_neg (fun hh => hr0 hh.symm)]
        exact hc
      · intro j v' e' hmem
        simp only [List.mem_singleton, Ev.retShared.injEq] at hmem
        exact hr0 hmem.2.1.symm
  | followerCanceled i0 t0 r0 e1 ht0 hp0 hd0 =>
      have hli0 : i0 ≠ li := by
        intro hh
        subst hh
        rw [hL] at ht0
        simp only [Option.some.injEq] at ht0
        subst ht0
        rcases hph2 with h | h <;> rw [hp0] at h <;> simp at h
      refine ⟨⟨hInv3, t, c, ?_, hkey, hfn, hph2, hcall, hc, hsize, hcur, hwr⟩,
        by simp, by simp, by simp, by simp⟩
      simp only [setThread_threads]
      rw [if_neg (fun hh => hli0 hh.symm)]
      exact hL
  | fnReturns i0 t0 r0 fc0 c0 v0 e1 ht0 hp0 hc0 hf0 =>
      have hli0 : i0 ≠ li := by
        intro hh
        subst hh
        rw [hL] at ht0
        simp only [Option.some.injEq] at ht0
        subst ht0
        rcases hph2 with h | h
        · rw [hp0] at h
          simp only [Phase.leaderRun.injEq] at h
          obtain ⟨hr0, hfc0⟩ := h
          subst hfc0
          rw [hfn] at hf0
          exact absurd hf0 (by simp)
        · rw [hp0] at h
          simp at h
      have hr0 : r0 ≠ r := by
        intro hh
        rw [hh] at hp0
        exact hli0 (hInv.ownerUniq i0 li t0 t r ht0 hL (Or.inl ⟨fc0, hp0⟩) howns)
      refine ⟨⟨hInv3, t, c, ?_, hkey, hfn, hph2, hcall, ?_, hsize, hcur, hwr⟩,
        by simp, by simp, by simp, by simp⟩
      · simp only [setRec_threads, setThread_threads]
        rw [if_neg (fun hh => hli0 hh.symm)]
        exact hL
      · simp only [setRec_recs, setThread_recs]
        rw [if_neg (fun hh => hr0 hh.symm)]
        exact hc
  | fnPanics i0 t0 r0 fc0 ht0 hp0 hf0 =>
      by_cases hli0 : i0 = li
      · subst hli0
        rw [hL] at ht0
        simp only [Option.some.injEq] at ht0
        subst ht0
        rcases hph2 with h | h
        · rw [hp0] at h
          simp only [Phase.leaderRun.injEq] at h
          obtain ⟨hr0, hfc0⟩ := h
          subst hr0
          refine ⟨⟨hInv3, setPhase t (.panicked r0), c, ?_, by simpa using hkey,
            by simpa using hfn, ?_, hcall, hc, hsize, hcur, hwr⟩,
            by simp, by simp, by simp, by simp⟩
          · simp
          · right
            simp
        · exfalso
          rw [hp0] at h
          simp at h
      · refine ⟨⟨hInv3, t, c, ?_, hkey, hfn, hph2, hcall, hc, hsize, hcur, hwr⟩,
          by simp, by simp, by simp, by simp⟩
        simp only [setThread_threads]
        rw [if_neg (fun hh => hli0 hh.symm)]
        exact hL
  | leaderExit i0 t0 r0 c0 ht0 hp0 hc0 =>
      have hli0 : i0 ≠ li := by
        intro hh
        subst hh
        rw [hL] at ht0
        simp only [Option.some.injEq] at ht0
        subst ht0
        rcases hph2 with h | h <;> rw [hp0] at h <;> simp at h
      have hr0 : r0 ≠ r := by
        intro hh
        rw [hh] at hp0
        exact hli0 (hInv.ownerUniq i0 li t0 t r ht0 hL (Or.inr (Or.inl hp0)) howns)
      have hkne : t0.key ≠ k := by
        intro hh
        have := (hInv.ownerCalls i0 t0 r0 ht0 (Or.inr (Or.inl hp0))).2
        rw [hh, hcall] at this
        simp only [Option.some.injEq] at this
        exact hr0 this.symm
      refine ⟨⟨hInv3, t, c, ?_, hkey, hfn, hph2, ?_, ?_, hsize, hcur, hwr⟩,
        by simp, ?_, ?_, ?_⟩
      · simp only [leaderExitState_threads]
        rw [if_neg (fun hh => hli0 hh.symm)]
        exact hL
      · simp only [leaderExitState_calls]
        rw [if_neg (fun hh => hkne hh.symm)]
        exact hcall
      · simp only [leaderExitState_recs]
        rw [if_neg (fun hh => hr0 hh.symm)]
        exact hc
      · intro hmem
        simp only [List.mem_cons, List.not_mem_nil, or_false] at hmem
        rcases hmem with h | h | h
        · simp only [Ev.openGate.injEq] at h
          exact hr0 h.symm
        · simp at h
        · simp at h
      · intro k' hmem
        simp only [List.mem_cons, List.not_mem_nil, or_false] at hmem
        rcases hmem with h | h | h
        · simp at h
        · simp only [Ev.del.injEq] at h
          exact hr0 h.2.symm
        · simp at h
      · intro j v' e' hmem
        simp only [List.mem_cons, List.not_mem_nil, or_false] at hmem
        rcases hmem with h | h | h
        · simp at h
        · simp at h
        · simp only [Ev.retShared.injEq] at h
          exact hr0 h.2.1.symm
  | ctxCancel i0 t0 e1 ht0 hd0 =>
      by_cases hli0 : i0 = li
      · subst hli0
        rw [hL] at ht0
        simp only [Option.some.injEq] at ht0
        subst ht0
        refine ⟨⟨hInv3, cancelCtx t e1, c, ?_, by simpa using hkey,
          by simpa using hfn, ?_, hcall, hc, hsize, hcur, hwr⟩,
          by simp, by simp, by simp, by simp⟩
        · simp
        · simpa using hph2
      · refine ⟨⟨hInv3, t, c, ?_, hkey, hfn, hph2, hcall, hc, hsize, hcur, hwr⟩,
          by simp, by simp, by simp, by simp⟩
        simp only [setThread_threads]
        rw [if_neg (fun hh => hli0 hh.symm)]
        exact hL

theorem panicState_steps [DecidableEq K] [Inhabited V]
    {li : Nat} {k : K} {r : Nat} {fnCtx : Ctx K E}
    {s s' : SysState K V E} {tr : List (Ev K V E)}
    (hS : Steps s tr s') (hP : PanicState li k r fnCtx s) :
    PanicState li k r fnCtx s' ∧
      (∀ i q fc, Ev.invoke i k q fc ∉ tr) ∧
      Ev.openGate r ∉ tr ∧ (∀ k', Ev.del k' r ∉ tr) ∧
      (∀ j v' e', Ev.retShared j r v' e' ∉ tr) := by
  induction hS with
  | refl => exact ⟨hP, by simp, by simp, by simp, by simp⟩
  | tail h1 h2 ih =>
      obtain ⟨hP2, ha1, ha2, ha3, ha4⟩ := ih
      obtain ⟨hP3, hb1, hb2, hb3, hb4⟩ := panicState_step hP2 h2
      refine ⟨hP3, ?_, ?_, ?_, ?_⟩
      · intro i q fc hmem
        rcases List.mem_append.mp hmem with h | h
        · exact ha1 i q fc h
        · exact hb1 i q fc h
      · intro hmem
        rcases List.mem_append.mp hmem with h | h
        · exact ha2 h
        · exact hb2 h
      · intro k' hmem
        rcases List.mem_append.mp hmem with h | h
        · exact ha3 k' h
        · exact hb3 k' h
      · intro j v' e' hmem
        rcases List.mem_append.mp hmem with h | h
        · exact ha4 j v' e' h
        · exact hb4 j v' e' h

/-- C10: if `fn` panics during the leader's execution, the panic
propagates out of `Call` (there is no recover and no deferred cleanup on
the leader path), so the writer weight is never released and the key is
never deleted from the registry: in every continuation the key stays
mapped to the record, the record stays fully held and unwritten (the gate
never opens, no `openGate` and no `del` event for it), no new leader ever
starts for that key (no further `invoke` with it — every subsequent
`Call` with the key attaches as a follower), and nobody ever receives a
result through that record (no `retShared` event for it) — a follower of
it can only return through its own context ending. -/
theorem claimC10 [DecidableEq K] [Inhabited V]
    {s s' : SysState K V E} {li : Nat} {t : Thread K V E} {k : K} {r : Nat}
    {fnCtx : Ctx K E} {tr : List (Ev K V E)}
    (hI : Inv s) (ht : s.threads li = some t) (hk : t.key = k)
    (hp : t.phase = .leaderRun r fnCtx) (hf : t.fn fnCtx = FnOutcome.panics)
    (hS : Steps s tr s') :
    s'.calls k = some r ∧
    (∃ c, s'.recs r = some c ∧ c.sem.cur = (writerWeight : Int) ∧
      c.written = false) ∧
    (∀ i q fc, Ev.invoke i k q fc ∉ tr) ∧
    Ev.openGate r ∉ tr ∧ (∀ k', Ev.del k' r ∉ tr) ∧
    (∀ j v' e', Ev.retShared j r v' e' ∉ tr) := by
  have hP : PanicState li k r fnCtx s := by
    obtain ⟨hsf, c, hc, hcur, hwr⟩ := hI.runSt li t r fnCtx ht hp
    obtain ⟨hsize, _, _, _⟩ := hI.recSt r c hc
    refine ⟨hI, t, c, ht, hk, hf, Or.inl hp, ?_, hc, hsize, hcur, hwr⟩
    rw [← hk]
    exact (hI.ownerCalls li t r ht (Or.inl ⟨fnCtx, hp⟩)).2
  obtain ⟨⟨hInv', t', c', hL', hkey', hfn', hph', hcall', hc', hsize', hcur',
    hwr'⟩, h1, h2, h3, h4⟩ := panicState_steps hS hP
  exact ⟨hcall', ⟨c', hc', hcur', hwr'⟩, h1, h2, h3, h4⟩

/-- exFn is a concrete work function returning `(7, nil)`. -/
def exFn : Ctx Nat Nat → FnOutcome Nat Nat := fun _ => FnOutcome.ok 7 none

/-- exT0 is a concrete caller: key 5, background context, about to call. -/
def exT0 : Thread Nat Nat Nat := ⟨5, background Nat Nat, exFn, Phase.ready⟩

/-- exTs is the thread table with caller `exT0` alone. -/
def exTs : Nat → Option (Thread Nat Nat Nat) :=
  fun i => if i = 0 then some exT0 else none

theorem exReady : ∀ i t, exTs i = some t → t.phase = Phase.ready := by
  intro i t h
  unfold exTs at h
  split at h
  · simp only [Option.some.injEq] at h
    subst h
    rfl
  · exact Option.noConfusion h

def exS0 : SysState Nat Nat Nat := mkInit exTs

def exSem : Weighted := ⟨(writerWeight : Int), (writerWeight : Int)⟩

def exFc : Ctx Nat Nat := withValue exT0.ctx exT0.key

def exS1 : SysState Nat Nat Nat := leaderEnterState exS0 0 exT0 exSem

def exT1 : Thread Nat Nat Nat := setPhase exT0 (Phase.leaderRun 0 exFc)

def exC0 : call Nat Nat := ⟨exSem, 0, none, false⟩

def exT2 : Thread Nat Nat Nat := setPhase exT1 (Phase.leaderFinish 0)

def exC1 : call Nat Nat := storeResult exC0 7 none

def exS2 : SysState Nat Nat Nat := setRec (setThread exS1 0 exT2) 0 exC1

def exS3 : SysState Nat Nat Nat := leaderExitState exS2 0 exT2 0 exC1

theorem exStep1 : Step exS0 [Ev.invoke 0 5 0 exFc] exS1 :=
  Step.leaderEnter exS0 0 exT0 exSem rfl rfl rfl tryAcquire_writer

theorem exStep2 : Step exS1 [Ev.write 0 7 none] exS2 :=
  Step.fnReturns exS1 0 exT1 0 exFc exC0 7 none rfl rfl rfl rfl

theorem exStep3 :
    Step exS2 [Ev.openGate 0, Ev.del 5 0, Ev.retShared 0 0 7 none] exS3 :=
  Step.leaderExit exS2 0 exT2 0 exC1 rfl rfl rfl

def exTr : List (Ev Nat Nat Nat) :=
  [Ev.invoke 0 5 0 exFc, Ev.write 0 7 none, Ev.openGate 0, Ev.del 5 0,
    Ev.retShared 0 0 7 none]

theorem exRun : Steps exS0 exTr exS3 :=
  Steps.tail (Steps.tail (Steps.tail (Steps.refl exS0) exStep1) exStep2) exStep3

theorem claimC2_witness :
    Ev.write 0 7 none ∈ exTr ∧
    (∀ v' e', Ev.write 0 v' e' ∈ exTr → v' = 7 ∧ e' = none) ∧
    (∀ j' v' e', Ev.retShared j' 0 v' e' ∈ exTr → v' = 7 ∧ e' = none) ∧
    (∃ i fc t, exS3.threads i = some t ∧ Ev.invoke i t.key 0 fc ∈ exTr ∧
      t.fn fc = FnOutcome.ok 7 none) :=
  @claimC2 Nat Nat Nat instDecidableEqNat instInhabitedNat exTs exTr exS3
    exReady exRun 0 0 7 none (by simp [exTr])

def exTF : Thread Nat Nat Nat := ⟨5, ⟨some 9, none⟩, exFn, Phase.followerWait 0⟩

def exSF : SysState Nat Nat Nat :=
  { recs := fun q => if q = 0 then some exC0 else none,
    nextRec := 1,
    calls := fun k => if k = 5 then some 0 else none,
    threads := fun i => if i = 1 then some exTF else none }

theorem claimC3_witness :
    ∃ s', Step exSF [Ev.retCanceled 1 default (some 9)] s' ∧
      (∃ t', s'.threads 1 = some t' ∧
        t'.phase = Phase.returned default (some 9) ∧
        t'.key = exTF.key ∧ t'.ctx = exTF.ctx) ∧
      (∀ j, j ≠ 1 → s'.threads j = exSF.threads j) ∧
      s'.recs = exSF.recs ∧ s'.calls = exSF.calls ∧ s'.nextRec = exSF.nextRec :=
  @claimC3 Nat Nat Nat instDecidableEqNat instInhabitedNat exSF 1 exTF 0 9
    rfl rfl rfl

theorem claimC4_witness :
    KeyFromContext exFc = some 5 ∧
    ∃ t, exS0.threads 0 = some t ∧ 5 = t.key ∧ exFc = withValue t.ctx t.key :=
  (@claimC4 Nat Nat Nat instDecidableEqNat instInhabitedNat).2 exS0 exS1
    [Ev.invoke 0 5 0 exFc] 0 5 0 exFc exStep1 (by simp)

def exCtxDone : Ctx Nat Nat := ⟨some 3, some 5⟩

def exTL : Thread Nat Nat Nat := ⟨5, exCtxDone, exFn, Phase.leaderRun 0 exCtxDone⟩

def exSL : SysState Nat Nat Nat :=
  { recs := fun q => if q = 0 then some exC0 else none,
    nextRec := 1,
    calls := fun k => if k = 5 then some 0 else none,
    threads := fun i => if i = 0 then some exTL else none }

theorem claimC5_witness :
    (∃ s1 s2 evs1 evs2, Step exSL evs1 s1 ∧ Step s1 evs2 s2 ∧
      ∃ t2, s2.threads 0 = some t2 ∧ t2.phase = Phase.returned 7 none) ∧
    (∀ evs s' t', Step exSL evs s' → s'.threads 0 = some t' →
      t'.phase = Phase.leaderRun 0 exCtxDone ∨
        t'.phase = Phase.leaderFinish 0) :=
  @claimC5 Nat Nat Nat instDecidableEqNat instInhabitedNat exSL 0 exTL 0
    exCtxDone exC0 7 none 3 rfl rfl rfl rfl rfl

theorem claimC6_witness :
    KeyFromContext (background Nat Nat) = none ∧
    ∀ k : Nat, KeyFromContext (background Nat Nat) ≠ some k :=
  ⟨(claimC6 Nat Nat).2, ((claimC6 Nat Nat).1 (background Nat Nat) rfl).2⟩

theorem claimC7_witness :
    Precedes (isWriteOf 0) (isOpenGateOf 0) exTr ∧
    Precedes (isOpenGateOf 0) (isDelOf 0) exTr :=
  @claimC7 Nat Nat Nat instDecidableEqNat instInhabitedNat exTs exTr exS3
    exReady exRun 0

theorem claimC8_witness :
    exS0.calls 5 = none ∧ exS0.recs 0 = none ∧ 0 = exS0.nextRec ∧
    exS1.recs 0 = some ⟨⟨(writerWeight : Int), (writerWeight : Int)⟩,
      default, none, false⟩ :=
  (@claimC8 Nat Nat Nat instDecidableEqNat instInhabitedNat exS0
    (inv_mkInit exReady)).2.2 [Ev.invoke 0 5 0 exFc] exS1 0 5 0 exFc exStep1
    (by simp)

theorem claimC9_witness :
    List.countP (isOpenGateOf 0) exTr ≤ 1 :=
  (@claimC9 Nat Nat Nat instDecidableEqNat instInhabitedNat).2.2.2.2.2
    exTs exTr exS3 exReady exRun 0

theorem tryAcquire_reader_open {w : Weighted}
    (hsz : w.size = (writerWeight : Int)) (hc : w.cur = 0) :
    tryAcquire w readerWeight = some ⟨w.size, w.cur + (readerWeight : Int)⟩ := by
  have hle : w.cur + (readerWeight : Int) ≤ w.size := by
    rw [hc, hsz, readerWeight_eq]
    have := writerWeight_pos
    omega
  unfold tryAcquire
  rw [if_pos hle]

def exW1T0 : Thread Nat Nat Nat := ⟨5, background Nat Nat, exFn, Phase.leaderRun 0 exFc⟩

def exW1T1 : Thread Nat Nat Nat := ⟨5, background Nat Nat, exFn, Phase.followerWait 0⟩

def exW1S0 : SysState Nat Nat Nat :=
  { recs := fun q => if q = 0 then some exC0 else none,
    nextRec := 1,
    calls := fun k => if k = 5 then some 0 else none,
    threads := fun i =>
      if i = 0 then some exW1T0 else if i = 1 then some exW1T1 else none }

def exW1T2 : Thread Nat Nat Nat := setPhase exW1T0 (Phase.leaderFinish 0)

def exW1S1 : SysState Nat Nat Nat :=
  setRec (setThread exW1S0 0 exW1T2) 0 exC1

def exW1S2 : SysState Nat Nat Nat := leaderExitState exW1S1 0 exW1T2 0 exC1

def exC2 : call Nat Nat := setSem exC1 (Weighted.release exC1.sem writerWeight)

def exSem2 : Weighted := ⟨exC2.sem.size, exC2.sem.cur + (readerWeight : Int)⟩

def exW1S3 : SysState Nat Nat Nat :=
  setRec (setThread exW1S2 1 (setPhase exW1T1 (Phase.returned 7 none))) 0
    (setSem exC2 (exSem2.release readerWeight))

theorem exW1Step1 : Step exW1S0 [Ev.write 0 7 none] exW1S1 :=
  Step.fnReturns exW1S0 0 exW1T0 0 exFc exC0 7 none rfl rfl rfl rfl

theorem exW1Step2 :
    Step exW1S1 [Ev.openGate 0, Ev.del 5 0, Ev.retShared 0 0 7 none] exW1S2 :=
  Step.leaderExit exW1S1 0 exW1T2 0 exC1 rfl rfl rfl

theorem exW1Step3 : Step exW1S2 [Ev.retShared 1 0 7 none] exW1S3 :=
  Step.followerAcquire exW1S2 1 exW1T1 0 exC2 exSem2 rfl rfl rfl
    (tryAcquire_reader_open rfl (sub_self (writerWeight : Int)))

def exW1Tr : List (Ev Nat Nat Nat) :=
  [Ev.write 0 7 none, Ev.openGate 0, Ev.del 5 0, Ev.retShared 0 0 7 none,
    Ev.retShared 1 0 7 none]

theorem exW1Run : Steps exW1S0 exW1Tr exW1S3 :=
  Steps.tail (Steps.tail (Steps.tail (Steps.refl exW1S0) exW1Step1) exW1Step2)
    exW1Step3

theorem exW1hF : ∀ j ∈ ([1] : List Nat), ∃ ft, exW1S0.threads j = some ft ∧
    ft.phase = Phase.followerWait 0 ∧ ft.ctx.canceledWith = none := by
  intro j hj
  simp only [List.mem_singleton] at hj
  subst hj
  exact ⟨exW1T1, rfl, rfl, rfl⟩

theorem exW1hOnly : ∀ i, i ≠ 0 → i ∉ ([1] : List Nat) →
    exW1S0.threads i = none := by
  intro i h0 h1
  simp only [List.mem_singleton] at h1
  show (if i = 0 then some exW1T0 else if i = 1 then some exW1T1 else none) = none
  rw [if_neg h0, if_neg h1]

theorem exW1hNC : ∀ i, Ev.cancel i ∉ exW1Tr := by
  intro i
  simp [exW1Tr]

theorem exW1hDone : ∀ j, j = 0 ∨ j ∈ ([1] : List Nat) →
    ∃ t' v' e', exW1S3.threads j = some t' ∧
      t'.phase = Phase.returned v' e' := by
  intro j hj
  rcases hj with hj | hj
  · subst hj
    exact ⟨setPhase exW1T2 (Phase.returned 7 none), 7, none, rfl, rfl⟩
  · simp only [List.mem_singleton] at hj
    subst hj
    exact ⟨setPhase exW1T1 (Phase.returned 7 none), 7, none, rfl, rfl⟩

theorem claimC1_witness :
    (∀ i k q fc, Ev.invoke i k q fc ∉ exW1Tr) ∧
    (∀ j, j = 0 ∨ j ∈ ([1] : List Nat) →
      ∃ t', exW1S3.threads j = some t' ∧ t'.phase = Phase.returned 7 none) :=
  @claimC1 Nat Nat Nat instDecidableEqNat instInhabitedNat 0 [1] 0 exFc 7 none
    exW1S0 exW1S3 exW1Tr exW1T0 (by simp) rfl rfl rfl
    ⟨exC0, rfl, rfl, rfl, rfl⟩ exW1hF exW1hOnly exW1Run exW1hNC exW1hDone

def exCxT1 : Thread Nat Nat Nat := cancelCtx exW1T1 9

def exCxS3 : SysState Nat Nat Nat := setThread exW1S2 1 exCxT1

def exCxS4 : SysState Nat Nat Nat :=
  setThread exCxS3 1 (setPhase exCxT1 (Phase.returned 0 (some 9)))

theorem exCxStep3 : Step exW1S2 [Ev.cancel 1] exCxS3 :=
  Step.ctxCancel exW1S2 1 exW1T1 9 rfl rfl

theorem exCxStep4 : Step exCxS3 [Ev.retCanceled 1 0 (some 9)] exCxS4 :=
  Step.followerCanceled exCxS3 1 exCxT1 0 9 rfl rfl rfl

def exCxTr : List (Ev Nat Nat Nat) :=
  [Ev.write 0 7 none, Ev.openGate 0, Ev.del 5 0, Ev.retShared 0 0 7 none,
    Ev.cancel 1, Ev.retCanceled 1 0 (some 9)]

theorem exCxRun : Steps exW1S0 exCxTr exCxS4 :=
  Steps.tail (Steps.tail (Steps.tail (Steps.tail (Steps.refl exW1S0)
    exW1Step1) exW1Step2) exCxStep3) exCxStep4

/-- C1 counterexample to the unamended statement: requiring only that no
caller's context ends before the leader's `fn` completes does not give
identical results. From the same two-caller state `exW1S0` — the leader
running `fn = ok (7, none)`, one follower waiting with a live context —
there is a run whose trace is a cancellation-free prefix, in which `fn`
completes (the `write` event), the gate opens and the leader returns,
followed by the follower's context ending and the follower returning the
zero value with its own context's error. `fn` ran exactly once (no
`invoke` in the trace) and both callers returned, yet the leader returned
`(7, none)` while the follower returned `(0, some 9)` — not the identical
pair. -/
theorem claimC1_cex :
    Steps exW1S0 exCxTr exCxS4 ∧
    exCxTr = [Ev.write 0 7 none, Ev.openGate 0, Ev.del 5 0,
      Ev.retShared 0 0 7 none] ++ [Ev.cancel 1, Ev.retCanceled 1 0 (some 9)] ∧
    (∀ i, Ev.cancel i ∉ ([Ev.write 0 7 none, Ev.openGate 0, Ev.del 5 0,
      Ev.retShared 0 0 7 none] : List (Ev Nat Nat Nat))) ∧
    (∀ i k q fc, Ev.invoke i k q fc ∉ exCxTr) ∧
    (∃ t0, exCxS4.threads 0 = some t0 ∧ t0.phase = Phase.returned 7 none) ∧
    (∃ t1, exCxS4.threads 1 = some t1 ∧
      t1.phase = Phase.returned 0 (some 9)) ∧
    (Phase.returned 0 (some 9) : Phase Nat Nat Nat) ≠ Phase.returned 7 none := by
  refine ⟨exCxRun, rfl, ?_, ?_, ?_, ?_, ?_⟩
  · intro i
    simp
  · intro i k q fc
    simp [exCxTr]
  · exact ⟨setPhase exW1T2 (Phase.returned 7 none), rfl, rfl⟩
  · exact ⟨setPhase exCxT1 (Phase.returned 0 (some 9)), rfl, rfl⟩
  · intro h
    simp at h

def exPFn : Ctx Nat Nat → FnOutcome Nat Nat := fun _ => FnOutcome.panics

def exPT0 : Thread Nat Nat Nat := ⟨5, background Nat Nat, exPFn, Phase.ready⟩

def exPTs : Nat → Option (Thread Nat Nat Nat) :=
  fun i => if i = 0 then some exPT0 else none

theorem exPReady : ∀ i t, exPTs i = some t → t.phase = Phase.ready := by
  intro i t h
  unfold exPTs at h
  split at h
  · cases h
    rfl
  · exact Option.noConfusion h

def exPS0 : SysState Nat Nat Nat := mkInit exPTs

def exPS1 : SysState Nat Nat Nat := leaderEnterState exPS0 0 exPT0 exSem

def exPT1 : Thread Nat Nat Nat := setPhase exPT0 (Phase.leaderRun 0 exFc)

theorem exPStep : Step exPS0 [Ev.invoke 0 5 0 exFc] exPS1 :=
  Step.leaderEnter exPS0 0 exPT0 exSem rfl rfl rfl tryAcquire_writer

def exPS2 : SysState Nat Nat Nat :=
  setThread exPS1 0 (setPhase exPT1 (Phase.panicked 0))

theorem exPRun : Steps exPS1 ([] : List (Ev Nat Nat Nat)) exPS2 :=
  Steps.tail (Steps.refl exPS1)
    (Step.fnPanics exPS1 0 exPT1 0 exFc rfl rfl rfl)

theorem claimC10_witness :
    exPS2.calls 5 = some 0 ∧
    (∃ c, exPS2.recs 0 = some c ∧ c.sem.cur = (writerWeight : Int) ∧
      c.written = false) ∧
    (∀ i q fc, Ev.invoke i 5 q fc ∉ ([] : List (Ev Nat Nat Nat))) ∧
    Ev.openGate 0 ∉ ([] : List (Ev Nat Nat Nat)) ∧
    (∀ k', Ev.del k' 0 ∉ ([] : List (Ev Nat Nat Nat))) ∧
    (∀ j v' e', Ev.retShared j 0 v' e' ∉ ([] : List (Ev Nat Nat Nat))) :=
  @claimC10 Nat Nat Nat instDecidableEqNat instInhabitedNat exPS1 exPS2 0
    exPT1 5 0 exFc [] (inv_step (inv_mkInit exPReady) exPStep) rfl rfl rfl rfl
    exPRun

end Singleflight
